import Mathlib

/-!
Verification development for the `mapa-psc` repository.

The repository derives postal-area polygons from geocoded address points:
`src/02_parquet2geopkg-poly.py` generates Voronoi cells for every point,
clips them to a boundary, dissolves them by ZIP code, simplifies them and
assigns colors with Welsh-Powell greedy coloring so that adjacent polygons
never share a color.

This file shallowly embeds the functions of that script.  External library
calls (shapely geometric predicates, scipy's `Voronoi`/`ConvexHull`) are
modelled as parameters or as symbolic `Geom` constructors; everything the
repository itself implements (the loops, branches, folds and arithmetic)
is translated directly.  Coordinates are embedded as rationals (the
floating-point values of the original are rationals), and the one
irrational ingredient of the source — the unit normalisation `t / ‖t‖` in
the Voronoi finitizer — is abstracted as a function parameter `unitDir`.
-/

namespace MapaPsc

/-- A planar point `(x, y)`, as used throughout `02_parquet2geopkg-poly.py`. -/
abbrev Pt := ℚ × ℚ

/-- From `config.py`: `BUFFER_RADIUS_METERS = 500` (fallback buffer radius). -/
def BUFFER_RADIUS_METERS : ℚ := 500

/-- `meters_to_degrees` (line 41): `meters / 91000`. -/
def meters_to_degrees (meters : ℚ) : ℚ := meters / 91000

/-! ## Graph coloring (`apply_graph_coloring`, lines 294-342)

The geometric tests of the adjacency loop are shapely calls, modelled by two
Boolean parameters: `bboxCand i j` models the spatial-index candidate test
(`spatial_index.intersection(geom.bounds)` returns exactly the indices whose
bounding box meets `geom`'s bounds) and `touchInt i j` models
`geom.touches(other) or geom.intersects(other)`. -/

/-- Lines 303-316: the adjacency set of node `i`.  The dict
`adjacency = {i: set() for i in range(n)}` has domain `range n`; for each
`i < n` the spatial-index candidates are filtered by `i != j` and the
touch-or-intersect test. -/
def adjacencyOf (n : ℕ) (bboxCand touchInt : ℕ → ℕ → Bool) (i : ℕ) : Finset ℕ :=
  if i < n then
    (Finset.range n).filter
      (fun j => bboxCand i j = true ∧ i ≠ j ∧ touchInt i j = true)
  else ∅

/-- Lines 328-330: `color = 0; while color in used: color += 1`, written with
explicit fuel (the loop always exits after at most `used.card + 1` tests). -/
def firstFreeFrom (used : Finset ℕ) : ℕ → ℕ → ℕ
  | 0, c => c
  | fuel + 1, c => if c ∈ used then firstFreeFrom used fuel (c + 1) else c

/-- The color chosen at lines 328-330: smallest natural not in `used`. -/
def smallestFree (used : Finset ℕ) : ℕ := firstFreeFrom used (used.card + 1) 0

/-- Line 325: `{colors[neighbor] for neighbor in adjacency[node] if neighbor in colors}`. -/
def usedNeighborColors (adj : ℕ → Finset ℕ) (colors : ℕ → Option ℕ) (node : ℕ) :
    Finset ℕ :=
  ((adj node).filter (fun j => (colors j).isSome)).image (fun j => (colors j).getD 0)

/-- Line 332: `colors[node] = color`, as a functional update of the map. -/
def updateColor (colors : ℕ → Option ℕ) (node c : ℕ) : ℕ → Option ℕ :=
  fun k => if k = node then some c else colors k

/-- Lines 324-332: the greedy coloring loop, with the `colors` dict embedded as
a partial map `ℕ → Option ℕ`. -/
def greedyAssign (adj : ℕ → Finset ℕ) : List ℕ → (ℕ → Option ℕ) → (ℕ → Option ℕ)
  | [], colors => colors
  | node :: rest, colors =>
    greedyAssign adj rest
      (updateColor colors node (smallestFree (usedNeighborColors adj colors node)))

/-- Line 319: `nodes = sorted(range(n), key=lambda x: len(adjacency[x]), reverse=True)`.
Python's sort is stable; insertion sort with the weak comparator
"degree of `a` ≥ degree of `b`" is the same stable descending order. -/
def wpOrder (n : ℕ) (adj : ℕ → Finset ℕ) : List ℕ :=
  List.insertionSort (fun a b => (adj b).card ≤ (adj a).card) (List.range n)

/-- `apply_graph_coloring` (lines 294-342), returning the `colors` map. -/
def applyGraphColoring (n : ℕ) (bboxCand touchInt : ℕ → ℕ → Bool) : ℕ → Option ℕ :=
  let adj := adjacencyOf n bboxCand touchInt
  greedyAssign adj (wpOrder n adj) (fun _ => none)

/-- Line 338: number of colors used (`max + 1`), as the card of the color set. -/
def colorsUsed (n : ℕ) (bboxCand touchInt : ℕ → ℕ → Bool) : Finset ℕ :=
  (Finset.range n).image (fun i => (applyGraphColoring n bboxCand touchInt i).getD 0)

/-- Maximum node degree of the adjacency graph. -/
def maxDegree (n : ℕ) (adj : ℕ → Finset ℕ) : ℕ :=
  (Finset.range n).sup (fun i => (adj i).card)

/-- A coloring is proper when colored endpoints of an edge always differ. -/
def ProperColoring (adj : ℕ → Finset ℕ) (colors : ℕ → Option ℕ) : Prop :=
  ∀ i j, j ∈ adj i → ∀ ci cj, colors i = some ci → colors j = some cj → ci ≠ cj

/-- Assigned color values are bounded by the node's degree. -/
def ColorsBounded (adj : ℕ → Finset ℕ) (colors : ℕ → Option ℕ) : Prop :=
  ∀ i c, colors i = some c → c ≤ (adj i).card

/-! ## Symbolic shapely geometry

The script manipulates geometries exclusively through the shapely library.
`Geom` records, symbolically, each geometry-producing shapely expression the
script builds; shapely's geometric predicates (`is_valid`, the coordinates of
curved buffers, ...) are external to the repository and enter theorems as
function parameters. -/

/-- One constructor per geometry-producing shapely operation used by
`02_parquet2geopkg-poly.py`: `Point(p)`, `Polygon(vs)`, `box(...)`,
`g.buffer(d)` (so `g.buffer(0)` is the zero-distance repair), intersection,
`unary_union`/dissolve union, and `g.simplify(tol, preserve_topology=True)`. -/
inductive Geom where
  | point (p : Pt)
  | polygon (vs : List Pt)
  | boxG (minx miny maxx maxy : ℚ)
  | buffer (g : Geom) (d : ℚ)
  | inter (g h : Geom)
  | unionAll (gs : List Geom)
  | simplifyG (g : Geom) (tol : ℚ)

/-- The validity-repair idiom used at lines 159-161, 197-198, 206-207 and
284-285: `if not g.is_valid: g = g.buffer(0)`.  The predicate `valid` models
shapely's `is_valid`. -/
def ensureValid (valid : Geom → Bool) (g : Geom) : Geom :=
  if valid g then g else Geom.buffer g 0

/-- Line 155-156: `if clip_boundary is not None: poly = poly.intersection(clip_boundary)`. -/
def applyClip (clip : Option Geom) (g : Geom) : Geom :=
  match clip with
  | some cb => Geom.inter g cb
  | none => g

/-! ## Voronoi finitization (`voronoi_finite_polygons`, lines 48-114)

scipy's `Voronoi` object is external; `VorData` mirrors the fields the script
reads from it.  The script's own reconstruction loop is translated directly.
The one non-rational operation, `t = t / np.linalg.norm(t)` (line 96), is
modelled by a parameter `unitDir` (the floating-point result of the
normalisation); nothing proved below depends on its value. -/

/-- The fields of a `scipy.spatial.Voronoi` result that the script reads.
`ridge_vertices` and `regions` use `-1` for the vertex at infinity, hence `ℤ`. -/
structure VorData where
  points : List Pt
  vertices : List Pt
  ridge_points : List (ℕ × ℕ)
  ridge_vertices : List (ℤ × ℤ)
  regions : List (List ℤ)
  point_region : List ℕ

/-- `np.sign`. -/
def qsign (x : ℚ) : ℚ := if 0 < x then 1 else if x < 0 then -1 else 0

/-- Maximum of a rational list (the list is nonempty wherever this is used). -/
def maxQ (l : List ℚ) : ℚ := l.foldl max (l.headD 0)

/-- Minimum of a rational list. -/
def minQ (l : List ℚ) : ℚ := l.foldl min (l.headD 0)

/-- Line 67: `np.ptp(vor.points, axis=0).max()` — the larger of the two
coordinate ranges. -/
def ptpMax (pts : List Pt) : ℚ :=
  max (maxQ (pts.map Prod.fst) - minQ (pts.map Prod.fst))
      (maxQ (pts.map Prod.snd) - minQ (pts.map Prod.snd))

/-- `mean(axis=0)` of a point list (lines 65 and 108). -/
def meanPt (pts : List Pt) : Pt :=
  ((pts.map Prod.fst).sum / pts.length, (pts.map Prod.snd).sum / pts.length)

/-- Lines 70-73: the `all_ridges` map.  For point `p`, the entries appear in
ridge order, each ridge `(p1, p2)` contributing `(p2, v1, v2)` when `p1 = p`
and `(p1, v1, v2)` when `p2 = p` — exactly the insertion order of the Python
dict of lists. -/
def allRidges (vor : VorData) (p : ℕ) : List (ℕ × ℤ × ℤ) :=
  (vor.ridge_points.zip vor.ridge_vertices).filterMap (fun x =>
    if x.1.1 = p then some (x.1.2, x.2.1, x.2.2)
    else if x.1.2 = p then some (x.1.1, x.2.1, x.2.2) else none)

/-- Vector difference `v - w`. -/
def sub (v w : Pt) : Pt := (v.1 - w.1, v.2 - w.2)

/-- 2D cross product `v.1 * w.2 - v.2 * w.1`. -/
def cross (v w : Pt) : ℚ := v.1 * w.2 - v.2 * w.1

/-- Dot product. -/
def dot (v w : Pt) : ℚ := v.1 * w.1 + v.2 * w.2

/-- Angular class of a vector, matching the value ranges of `np.arctan2(y, x)`:
class 0 for angles in `(-π, 0)` (`y < 0`), class 1 for angle `0`
(`y = 0, x ≥ 0`, including the zero vector), class 2 for `(0, π)` (`y > 0`),
class 3 for angle `π` (`y = 0, x < 0`). -/
def angClass (v : Pt) : ℕ :=
  if v.2 < 0 then 0
  else if v.2 = 0 ∧ 0 ≤ v.1 then 1
  else if 0 < v.2 then 2
  else 3

/-- `angLeB v w` holds when `arctan2` of `v` is at most `arctan2` of `w`:
compare angular classes first, and inside the open half-planes compare by the
sign of the cross product. -/
def angLeB (v w : Pt) : Bool :=
  decide (angClass v < angClass w ∨
    (angClass v = angClass w ∧
      ((angClass v = 1 ∨ angClass v = 3) ∨ 0 ≤ cross v w)))

/-- Lines 106-110: sort the region's vertex indices by the angle of the
vertex around the centroid of the region's vertices.  `np.argsort` orders the
indices by nondecreasing `arctan2` value; insertion sort with `angLeB`
produces such an ordering (identical whenever the angles are distinct). -/
def sortRegionByAngle (newVerts : List Pt) (region : List ℤ) : List ℤ :=
  let c := meanPt (region.map (fun v => newVerts.getD v.toNat (0, 0)))
  List.insertionSort
    (fun a b => angLeB (sub (newVerts.getD a.toNat (0, 0)) c)
      (sub (newVerts.getD b.toNat (0, 0)) c) = true) region

/-- `AngLe v w`: the `arctan2` angle of `v` is at most that of `w`. -/
def AngLe (v w : Pt) : Prop := angLeB v w = true

/-- `AngEq v w`: `v` and `w` have the same `arctan2` angle. -/
def AngEq (v w : Pt) : Prop := AngLe v w ∧ AngLe w v

/-- Strict angular order. -/
def AngLt (v w : Pt) : Prop := AngLe v w ∧ ¬ AngLe w v

/-- `p` lies on the closed segment from `a` to `b`. -/
def onSeg (a b p : Pt) : Prop :=
  ∃ t : ℚ, 0 ≤ t ∧ t ≤ 1 ∧ p = (a.1 + t * (b.1 - a.1), a.2 + t * (b.2 - a.2))

/-- The vertex list `qs`, read as a closed polygon (edge `i` joins `qs[i]` to
`qs[(i+1) % k]`), is non-self-intersecting: two distinct edges meet only when
they are cyclically consecutive, and then only at their shared vertex. -/
def PolySimple (qs : List Pt) : Prop :=
  ∀ i j, i < qs.length → j < qs.length → i ≠ j → ∀ p : Pt,
    onSeg (qs.getD i (0, 0)) (qs.getD ((i + 1) % qs.length) (0, 0)) p →
    onSeg (qs.getD j (0, 0)) (qs.getD ((j + 1) % qs.length) (0, 0)) p →
    ((j = (i + 1) % qs.length ∧ p = qs.getD j (0, 0)) ∨
     (i = (j + 1) % qs.length ∧ p = qs.getD i (0, 0)))

/-- The region's vertex indices are in nondecreasing angular order around the
centroid of the region's own vertices. -/
def SortedByAngle (verts : List Pt) (region : List ℤ) : Prop :=
  region.Pairwise (fun a b =>
    AngLe
      (sub (verts.getD a.toNat (0, 0))
        (meanPt (region.map (fun v => verts.getD v.toNat (0, 0)))))
      (sub (verts.getD b.toNat (0, 0))
        (meanPt (region.map (fun v => verts.getD v.toNat (0, 0))))))

/-- `nv'` extends `nv`: it is at least as long and agrees on all positions of
`nv` (the `new_vertices` list only ever grows by appending). -/
def ExtendsV (nv nv' : List Pt) : Prop :=
  nv.length ≤ nv'.length ∧ ∀ m, m < nv.length → nv'.getD m (0, 0) = nv.getD m (0, 0)

/-- The coordinates of region `i`'s vertices in a finitization result. -/
def regionVerts (fp : List (List ℤ) × List Pt) (i : ℕ) : List Pt :=
  (fp.1.getD i []).map (fun v => fp.2.getD v.toNat (0, 0))

/-- Lines 88-104: one iteration of the ridge loop for an infinite region.
State is `(new_region, new_vertices)`; a ridge whose both vertices are finite
is skipped, otherwise a far point is synthesized and appended. -/
def extendRidge (center : Pt) (radius : ℚ) (unitDir : Pt → Pt) (vor : VorData)
    (p1 : ℕ) (st : List ℤ × List Pt) (r : ℕ × ℤ × ℤ) : List ℤ × List Pt :=
  let p2 := r.1
  let v1 := if r.2.2 < 0 then r.2.2 else r.2.1
  let v2 := if r.2.2 < 0 then r.2.1 else r.2.2
  if 0 ≤ v1 then st
  else
    let pp1 := vor.points.getD p1 (0, 0)
    let pp2 := vor.points.getD p2 (0, 0)
    let t := unitDir (sub pp2 pp1)
    let nv : Pt := (-t.2, t.1)
    let mid : Pt := ((pp1.1 + pp2.1) / 2, (pp1.2 + pp2.2) / 2)
    let s := qsign (dot (sub mid center) nv)
    let dirv : Pt := (s * nv.1, s * nv.2)
    let base := vor.vertices.getD v2.toNat (0, 0)
    let far : Pt := (base.1 + dirv.1 * radius, base.2 + dirv.2 * radius)
    (st.1 ++ [(st.2.length : ℤ)], st.2 ++ [far])

/-- Lines 76-112: reconstruct one region.  A region whose vertex indices are
all nonnegative is kept as-is; otherwise the nonnegative ones are kept, far
points are synthesized along each infinite ridge, and the result is sorted by
angle around the vertices' centroid. -/
def finitizeRegion (center : Pt) (radius : ℚ) (unitDir : Pt → Pt) (vor : VorData)
    (st : List (List ℤ) × List Pt) (pr : ℕ × ℕ) : List (List ℤ) × List Pt :=
  let vertices0 := vor.regions.getD pr.2 []
  if vertices0.all (fun v => 0 ≤ v) then (st.1 ++ [vertices0], st.2)
  else
    let ridges := allRidges vor pr.1
    let st2 := ridges.foldl (extendRidge center radius unitDir vor pr.1)
      (vertices0.filter (fun v => 0 ≤ v), st.2)
    (st.1 ++ [sortRegionByAngle st2.2 st2.1], st2.2)

/-- `voronoi_finite_polygons` (lines 48-114): returns the reconstructed
regions (one per input point, in `point_region` order) and the extended
vertex list (`vor.vertices` plus the synthesized far points). -/
def voronoi_finite_polygons (unitDir : Pt → Pt) (vor : VorData) :
    List (List ℤ) × List Pt :=
  let center := meanPt vor.points
  let radius := ptpMax vor.points * 10
  vor.point_region.enum.foldl (finitizeRegion center radius unitDir vor)
    ([], vor.vertices)

/-! ## Polygon generation and the main pipeline

File I/O, scipy's `Voronoi`/`ConvexHull` constructions and shapely's
predicates are external collaborators; they are passed in as parameters
(`voronoiOf`, `hullIdx`, `valid`, `isMulti`).  A row of the working
DataFrame is `(zip_code, (lon, lat))` before polygon generation. -/

/-- Lines 148-152: the raw cell geometry of region `ir.2` for point index
`ir.1` — a polygon over the region's vertices, or the 500 m point buffer
when the region has fewer than 3 vertices. -/
def voronoiCellRaw (coords : List Pt) (fp : List (List ℤ) × List Pt)
    (ir : ℕ × List ℤ) : Geom :=
  if ir.2.length < 3 then
    Geom.buffer (Geom.point (coords.getD ir.1 (0, 0)))
      (meters_to_degrees BUFFER_RADIUS_METERS)
  else
    Geom.polygon (ir.2.map (fun v => fp.2.getD v.toNat (0, 0)))

/-- Lines 148-162: one finished cell — the raw cell, clipped, repaired once
if invalid. -/
def voronoiCell (valid : Geom → Bool) (clip : Option Geom) (coords : List Pt)
    (fp : List (List ℤ) × List Pt) (ir : ℕ × List ℤ) : Geom :=
  ensureValid valid (applyClip clip (voronoiCellRaw coords fp ir))

/-- `generate_voronoi_polygons` (lines 117-167).  Fewer than 4 points in the
*whole* input: every point is replaced by its 500 m buffer, with no clipping
and no validity check (lines 131-137).  Otherwise each finitized region
becomes a cell via `voronoiCell`.  The output pairs zip codes with cell
geometries positionally, as the `GeoDataFrame` constructor does. -/
def generate_voronoi_polygons (unitDir : Pt → Pt) (voronoiOf : List Pt → VorData)
    (valid : Geom → Bool) (rows : List (String × Pt)) (clip : Option Geom) :
    List (String × Geom) :=
  let coords := rows.map Prod.snd
  if coords.length < 4 then
    rows.map (fun r =>
      (r.1, Geom.buffer (Geom.point r.2) (meters_to_degrees BUFFER_RADIUS_METERS)))
  else
    let fp := voronoi_finite_polygons unitDir (voronoiOf coords)
    (rows.map Prod.fst).zip (fp.1.enum.map (voronoiCell valid clip coords fp))

/-- `load_boundary_from_file` (lines 170-211).  The file system is external:
`file = none` models a missing file, `some gs` the geometry rows read from
it.  `isMulti` models the `isinstance(boundary, MultiPolygon)` test and
`unary_union` of a multi-part boundary is recorded symbolically. -/
def load_boundary_from_file (valid isMulti : Geom → Bool)
    (file : Option (List Geom)) : Option Geom :=
  match file with
  | none => none
  | some rows =>
    if rows.length = 0 then none
    else
      let b0 := rows.headD (Geom.polygon [])
      let b1 := if isMulti b0 then Geom.unionAll [b0] else b0
      let b2 := if valid b1 then b1 else Geom.buffer b1 0
      let b3 := Geom.simplifyG b2 (meters_to_degrees 50)
      some (if valid b3 then b3 else Geom.buffer b3 0)

/-- `create_clip_boundary_from_hull` (lines 214-242).  Fewer than 3 points:
bounding box expanded by the buffer (lines 228-234).  Otherwise the convex
hull — computed by scipy, modelled by the `hullIdx` oracle returning
`hull.vertices` — is turned into a polygon and buffered. -/
def create_clip_boundary_from_hull (hullIdx : List Pt → List ℕ)
    (coords : List Pt) (buffer_meters : ℚ) : Geom :=
  if coords.length < 3 then
    let minx := minQ (coords.map Prod.fst)
    let miny := minQ (coords.map Prod.snd)
    let maxx := maxQ (coords.map Prod.fst)
    let maxy := maxQ (coords.map Prod.snd)
    let bd := meters_to_degrees buffer_meters
    Geom.boxG (minx - bd) (miny - bd) (maxx + bd) (maxy + bd)
  else
    Geom.buffer
      (Geom.polygon ((hullIdx coords).map (fun i => coords.getD i (0, 0))))
      (meters_to_degrees buffer_meters)

/-- `dissolve_by_zip_code` (lines 245-262).  pandas `dissolve(by='zip_code')`
groups rows by zip code in ascending key order and unions each group's
geometries; the merge with the groupby size adds `point_count`.  Output rows
are `(zip_code, dissolved geometry, point_count)`. -/
def dissolve_by_zip_code (rows : List (String × Geom)) :
    List (String × Geom × ℕ) :=
  let zips := List.insertionSort (fun a b : String => a ≤ b)
    (rows.map Prod.fst).dedup
  zips.map (fun z =>
    (z, Geom.unionAll ((rows.filter (fun r => r.1 = z)).map Prod.snd),
      (rows.filter (fun r => r.1 = z)).length))

/-- `simplify_and_smooth` (lines 265-291): Douglas-Peucker simplify each
geometry, repairing once if the result reports invalid. -/
def simplify_and_smooth (valid : Geom → Bool)
    (rows : List (String × Geom × ℕ)) (tolerance_meters : ℚ) :
    List (String × Geom × ℕ) :=
  let tolerance_deg := meters_to_degrees tolerance_meters
  rows.map (fun r => (r.1, ensureValid valid (Geom.simplifyG r.2.1 tolerance_deg), r.2.2))

/-- One output row of the pipeline (the `area_km2` column, computed by
shapely's external planar-area routine at lines 389-390, is not modelled). -/
structure OutRow where
  zip : String
  geom : Geom
  point_count : ℕ
  method : String
  color_index : Option ℕ

/-- The clip-boundary selection of `main` (lines 369-372): the boundary file
when present and nonempty, else the convex-hull fallback.  The buffer margin
(`config.VORONOI_CLIP_BUFFER_METERS`, absent from this snapshot's
`config.py`) is a parameter. -/
def mainClipBoundary (valid isMulti : Geom → Bool) (hullIdx : List Pt → List ℕ)
    (file : Option (List Geom)) (coords : List Pt) (clipBufferMeters : ℚ) : Geom :=
  match load_boundary_from_file valid isMulti file with
  | some b => b
  | none => create_clip_boundary_from_hull hullIdx coords clipBufferMeters

/-- The data path of `main` (lines 365-396): clip boundary, Voronoi cells,
dissolve, simplify, the constant `method = 'voronoi'` column (line 393), and
graph coloring.  `bboxCand`/`touchInt` model the shapely predicates on the
final polygon set as in `applyGraphColoring`. -/
def pipeline (unitDir : Pt → Pt) (voronoiOf : List Pt → VorData)
    (valid isMulti : Geom → Bool) (hullIdx : List Pt → List ℕ)
    (file : Option (List Geom)) (df : List (String × Pt))
    (clipBufferMeters simplifyTolMeters : ℚ)
    (bboxCand touchInt : ℕ → ℕ → Bool) : List OutRow :=
  let clip := mainClipBoundary valid isMulti hullIdx file (df.map Prod.snd) clipBufferMeters
  let voronoiRows := generate_voronoi_polygons unitDir voronoiOf valid df (some clip)
  let dissolved := dissolve_by_zip_code voronoiRows
  let simplified := simplify_and_smooth valid dissolved simplifyTolMeters
  let colors := applyGraphColoring simplified.length bboxCand touchInt
  simplified.enum.map (fun ir =>
    { zip := ir.2.1, geom := ir.2.2.1, point_count := ir.2.2.2,
      method := "voronoi", color_index := colors ir.1 })

/-! ## DensityEstimator (spec §4.1) -/

/-- From `config.py`: `EDGE_LENGTH_BASE_METERS = 150` (minimum parameter,
dense areas). -/
def EDGE_LENGTH_BASE_METERS : ℚ := 150

/-- From `config.py`: `EDGE_LENGTH_MAX_METERS = 500` (maximum parameter,
sparse areas). -/
def EDGE_LENGTH_MAX_METERS : ℚ := 500

/-- From `config.py`: `EDGE_DENSITY_THRESHOLD = 50` (points per km²). -/
def EDGE_DENSITY_THRESHOLD : ℚ := 50

/-- Modelled from the spec: the `DensityEstimator`'s density-to-parameter
mapping (spec §4.1).  The estimator itself is not in this `src/` snapshot —
only its configuration constants are declared in `config.py` — so the
mapping follows the spec's words: density at or above an upper threshold
gives the minimum parameter; density at or below a lower fixed cutoff gives
the maximum parameter; in between, logarithmic interpolation between the two
bounds, clamped to `[min, max]`. -/
noncomputable def densityToParam (pmin pmax lo hi : ℚ) (d : ℚ) : ℝ :=
  if hi ≤ d then (pmin : ℝ)
  else if d ≤ lo then (pmax : ℝ)
  else
    let t := (Real.log d - Real.log lo) / (Real.log hi - Real.log lo)
    max (pmin : ℝ) (min (pmax : ℝ) ((pmax : ℝ) - ((pmax : ℝ) - (pmin : ℝ)) * t))

/-! ## Concrete instantiations of the external oracles

Used to evaluate the embedding at specific inputs. -/

/-- A validity oracle that accepts exactly the raw-polygon constructor. -/
def validPolyOnly : Geom → Bool := fun g =>
  match g with
  | Geom.polygon _ => true
  | _ => false

/-- The everywhere-true validity oracle. -/
def validAlways : Geom → Bool := fun _ => true

/-- A trivial Voronoi oracle (never inspected on the paths it is used for). -/
def trivialVor : VorData := ⟨[], [], [], [], [], []⟩

/-- A small concrete Voronoi structure over four points, with one finite
(degenerate, single-vertex) region per point. -/
def vor4 : VorData :=
  { points := [(0, 0), (1, 0), (0, 1), (1, 1)]
    vertices := [(1/2, 1/2)]
    ridge_points := []
    ridge_vertices := []
    regions := [[0], [0], [0], [0]]
    point_region := [0, 1, 2, 3] }

/-- Four concrete input rows. -/
def rows4 : List (String × Pt) :=
  [("10000", (0, 0)), ("20000", (1, 0)), ("30000", (0, 1)), ("40000", (1, 1))]

/-- Recognizes a buffered-polygon geometry (a convex hull turned into a
polygon and buffered, as `create_clip_boundary_from_hull` builds for three
or more points). -/
def isHullBufferGeom : Geom → Bool := fun g =>
  match g with
  | Geom.buffer (Geom.polygon _) _ => true
  | _ => false

/-- Recognizes a rectangle geometry built by shapely's `box`. -/
def isBoxGeom : Geom → Bool := fun g =>
  match g with
  | Geom.boxG _ _ _ _ => true
  | _ => false

/-- A concrete Voronoi structure over four points in which the first point's
region is unbounded (it contains the `-1` infinity marker) with two infinite
ridges, and the remaining points share a finite single-vertex region. -/
def vorC4 : VorData :=
  { points := [(0, 0), (4, 0), (0, 4), (4, 4)]
    vertices := [(2, 2)]
    ridge_points := [(0, 1), (0, 2)]
    ridge_vertices := [(-1, 0), (-1, 0)]
    regions := [[-1, 0], [0]]
    point_region := [0, 1, 1, 1] }

/-- The extended vertex list `voronoi_finite_polygons` computes for `vorC4`
with the identity direction oracle: the original vertex plus the two far
points synthesized along the infinite ridges of point 0. -/
def nvC4 : List Pt := [(2, 2), (2, -158), (-158, 2)]

/-- The finitized first region of `vorC4`: the three vertex indices sorted by
angle around their centroid. -/
def regC4 : List ℤ := sortRegionByAngle nvC4 [0, 1, 2]

/-- The full finitization result for `vorC4`. -/
def fpC4 : List (List ℤ) × List Pt := ([regC4, [0], [0], [0]], nvC4)

/-- Four concrete input rows matching the points of `vorC4`. -/
def rowsC4 : List (String × Pt) :=
  [("10000", (0, 0)), ("20000", (4, 0)), ("30000", (0, 4)), ("40000", (4, 4))]

section GraphLemmas

variable {used : Finset ℕ}

theorem firstFreeFrom_not_mem :
    ∀ fuel c, (∃ k, k ≤ fuel ∧ c + k ∉ used) → firstFreeFrom used fuel c ∉ used := by
  intro fuel
  induction fuel with
  | zero =>
    intro c ⟨k, hk, hmem⟩
    interval_cases k
    rw [Nat.add_zero] at hmem
    exact hmem
  | succ fuel ih =>
    intro c ⟨k, hk, hmem⟩
    by_cases hc : c ∈ used
    · have hkpos : k ≠ 0 := by
        rintro rfl; simp at hmem; exact hmem hc
      obtain ⟨k', rfl⟩ := Nat.exists_eq_succ_of_ne_zero hkpos
      have : firstFreeFrom used (fuel + 1) c = firstFreeFrom used fuel (c + 1) := by
        simp [firstFreeFrom, hc]
      rw [this]
      exact ih (c + 1) ⟨k', by omega, by convert hmem using 2; omega⟩
    · have : firstFreeFrom used (fuel + 1) c = c := by
        simp [firstFreeFrom, hc]
      rw [this]
      exact hc

theorem firstFreeFrom_le_of_not_mem :
    ∀ fuel c m, c ≤ m → m ∉ used → firstFreeFrom used fuel c ≤ m := by
  intro fuel
  induction fuel with
  | zero => intro c m hcm _; simpa [firstFreeFrom] using hcm
  | succ fuel ih =>
    intro c m hcm hm
    by_cases hc : c ∈ used
    · have hne : c ≠ m := fun h => hm (h ▸ hc)
      have : firstFreeFrom used (fuel + 1) c = firstFreeFrom used fuel (c + 1) := by
        simp [firstFreeFrom, hc]
      rw [this]
      exact ih (c + 1) m (by omega) hm
    · simpa [firstFreeFrom, hc] using hcm

theorem exists_le_card_not_mem (used : Finset ℕ) : ∃ k, k ≤ used.card ∧ k ∉ used := by
  by_contra h
  push_neg at h
  have hsub : Finset.range (used.card + 1) ⊆ used := by
    intro k hk
    exact h k (by simpa using Nat.lt_succ_iff.mp (Finset.mem_range.mp hk))
  have := Finset.card_le_card hsub
  simp at this

theorem smallestFree_not_mem (used : Finset ℕ) : smallestFree used ∉ used := by
  obtain ⟨k, hk, hmem⟩ := exists_le_card_not_mem used
  exact firstFreeFrom_not_mem _ 0 ⟨k, by omega, by simpa using hmem⟩

theorem smallestFree_le_card (used : Finset ℕ) : smallestFree used ≤ used.card := by
  obtain ⟨k, hk, hmem⟩ := exists_le_card_not_mem used
  exact le_trans (firstFreeFrom_le_of_not_mem _ 0 k (Nat.zero_le k) hmem) hk

theorem updateColor_self (colors : ℕ → Option ℕ) (node c : ℕ) :
    updateColor colors node c node = some c := by
  simp [updateColor]

theorem updateColor_other (colors : ℕ → Option ℕ) (node c k : ℕ) (h : k ≠ node) :
    updateColor colors node c k = colors k := by
  simp [updateColor, h]

theorem greedyAssign_isSome_mono {adj : ℕ → Finset ℕ} :
    ∀ (order : List ℕ) colors node, (colors node).isSome →
      (greedyAssign adj order colors node).isSome := by
  intro order
  induction order with
  | nil => intro colors node h; exact h
  | cons a rest ih =>
    intro colors node h
    simp only [greedyAssign]
    apply ih
    by_cases hna : node = a
    · subst hna; rw [updateColor_self]; rfl
    · rw [updateColor_other _ _ _ _ hna]; exact h

theorem greedyAssign_isSome_of_mem {adj : ℕ → Finset ℕ} :
    ∀ (order : List ℕ) colors node, node ∈ order →
      (greedyAssign adj order colors node).isSome := by
  intro order
  induction order with
  | nil => intro _ _ h; simp at h
  | cons a rest ih =>
    intro colors node hmem
    rcases List.mem_cons.mp hmem with h | h
    · subst h
      simp only [greedyAssign]
      apply greedyAssign_isSome_mono
      rw [updateColor_self]; rfl
    · exact ih _ node h

theorem greedyAssign_proper {adj : ℕ → Finset ℕ}
    (hirr : ∀ i, i ∉ adj i) (hsymm : ∀ i j, j ∈ adj i → i ∈ adj j) :
    ∀ (order : List ℕ) colors, ProperColoring adj colors →
      ProperColoring adj (greedyAssign adj order colors) := by
  intro order
  induction order with
  | nil => intro colors h; exact h
  | cons node rest ih =>
    intro colors hprop
    simp only [greedyAssign]
    apply ih
    intro i j hij ci cj hci hcj
    by_cases hi : i = node <;> by_cases hj : j = node
    · subst hi; subst hj; exact absurd hij (hirr _)
    · subst hi
      rw [updateColor_self] at hci
      rw [updateColor_other _ _ _ _ hj] at hcj
      have hjs : (colors j).isSome := by simp [hcj]
      have hmem : cj ∈ usedNeighborColors adj colors i := by
        refine Finset.mem_image.mpr ⟨j, Finset.mem_filter.mpr ⟨hij, hjs⟩, ?_⟩
        simp [hcj]
      intro h
      apply smallestFree_not_mem (usedNeighborColors adj colors i)
      have hc : ci = smallestFree (usedNeighborColors adj colors i) :=
        (Option.some_injective _ hci).symm
      rw [← hc, h]; exact hmem
    · subst hj
      rw [updateColor_other _ _ _ _ hi] at hci
      rw [updateColor_self] at hcj
      have hin : i ∈ adj j := hsymm i j hij
      have his : (colors i).isSome := by simp [hci]
      have hmem : ci ∈ usedNeighborColors adj colors j := by
        refine Finset.mem_image.mpr ⟨i, Finset.mem_filter.mpr ⟨hin, his⟩, ?_⟩
        simp [hci]
      intro h
      apply smallestFree_not_mem (usedNeighborColors adj colors j)
      have hc : cj = smallestFree (usedNeighborColors adj colors j) :=
        (Option.some_injective _ hcj).symm
      rw [← hc, ← h]; exact hmem
    · rw [updateColor_other _ _ _ _ hi] at hci
      rw [updateColor_other _ _ _ _ hj] at hcj
      exact hprop i j hij ci cj hci hcj

theorem greedyAssign_bounded {adj : ℕ → Finset ℕ} :
    ∀ (order : List ℕ) colors, ColorsBounded adj colors →
      ColorsBounded adj (greedyAssign adj order colors) := by
  intro order
  induction order with
  | nil => intro colors h; exact h
  | cons node rest ih =>
    intro colors hbnd
    simp only [greedyAssign]
    apply ih
    intro i c hic
    by_cases hi : i = node
    · subst hi
      rw [updateColor_self] at hic
      have hc : c = smallestFree (usedNeighborColors adj colors i) :=
        (Option.some_injective _ hic).symm
      rw [hc]
      calc smallestFree (usedNeighborColors adj colors i)
        ≤ (usedNeighborColors adj colors i).card := smallestFree_le_card _
        _ ≤ ((adj i).filter (fun j => (colors j).isSome)).card := Finset.card_image_le
        _ ≤ (adj i).card := Finset.card_filter_le _ _
    · rw [updateColor_other _ _ _ _ hi] at hic
      exact hbnd i c hic

theorem mem_wpOrder {n : ℕ} {adj : ℕ → Finset ℕ} {i : ℕ} (hi : i < n) :
    i ∈ wpOrder n adj := by
  have hperm := List.perm_insertionSort
    (fun a b => (adj b).card ≤ (adj a).card) (List.range n)
  exact hperm.mem_iff.mpr (List.mem_range.mpr hi)

theorem mem_adjacencyOf {n : ℕ} {bboxCand touchInt : ℕ → ℕ → Bool} {i j : ℕ} :
    j ∈ adjacencyOf n bboxCand touchInt i ↔
      i < n ∧ j < n ∧ bboxCand i j = true ∧ i ≠ j ∧ touchInt i j = true := by
  unfold adjacencyOf
  by_cases hi : i < n
  · simp [hi, Finset.mem_filter, and_assoc]
  · simp [hi]

end GraphLemmas

/-- C5: the adjacency graph built in `apply_graph_coloring` is an undirected
graph over nodes `0..n-1` with no self-loops and symmetric adjacency, and
membership is decided by the touch-or-intersect predicate on every
spatial-index candidate pair.  The hypotheses record the geometric facts
about the shapely predicates being modelled: `touches`/`intersects` is
symmetric, and geometries that touch or intersect have intersecting
bounding boxes. -/
theorem adjacency_graph_invariants (n : ℕ) (bboxCand touchInt : ℕ → ℕ → Bool)
    (hts : ∀ i j, touchInt i j = touchInt j i)
    (htb : ∀ i j, touchInt i j = true → bboxCand i j = true) :
    (∀ i, i ∉ adjacencyOf n bboxCand touchInt i) ∧
    (∀ i j, j ∈ adjacencyOf n bboxCand touchInt i →
      i ∈ adjacencyOf n bboxCand touchInt j) ∧
    (∀ i j, j ∈ adjacencyOf n bboxCand touchInt i ↔
      (i < n ∧ j < n ∧ bboxCand i j = true ∧ i ≠ j ∧ touchInt i j = true)) := by
  refine ⟨?_, ?_, fun i j => mem_adjacencyOf⟩
  · intro i hmem
    exact (mem_adjacencyOf.mp hmem).2.2.2.1 rfl
  · intro i j hmem
    obtain ⟨hi, hj, _, hne, ht⟩ := mem_adjacencyOf.mp hmem
    have ht' : touchInt j i = true := (hts i j) ▸ ht
    exact mem_adjacencyOf.mpr ⟨hj, hi, htb j i ht', Ne.symm hne, ht'⟩

/-- Witness for C5 at a concrete instance. -/
theorem adjacency_graph_invariants_witness :
    (∀ i, i ∉ adjacencyOf 3 (fun _ _ => true) (fun _ _ => true) i) ∧
    (∀ i j, j ∈ adjacencyOf 3 (fun _ _ => true) (fun _ _ => true) i →
      i ∈ adjacencyOf 3 (fun _ _ => true) (fun _ _ => true) j) ∧
    (∀ i j, j ∈ adjacencyOf 3 (fun _ _ => true) (fun _ _ => true) i ↔
      (i < 3 ∧ j < 3 ∧ (fun (_ _ : ℕ) => true) i j = true ∧ i ≠ j ∧
        (fun (_ _ : ℕ) => true) i j = true)) :=
  adjacency_graph_invariants 3 (fun _ _ => true) (fun _ _ => true)
    (fun _ _ => rfl) (fun _ _ _ => rfl)

/-- C1: after `apply_graph_coloring` runs on the full polygon set, every pair
of polygons that are adjacent under the touch-or-intersect predicate receives
distinct `color_index` values.  Hypotheses as in `adjacency_graph_invariants`. -/
theorem apply_graph_coloring_adjacent_distinct
    (n : ℕ) (bboxCand touchInt : ℕ → ℕ → Bool)
    (hts : ∀ i j, touchInt i j = touchInt j i)
    (htb : ∀ i j, touchInt i j = true → bboxCand i j = true)
    (i j : ℕ) (hi : i < n) (hj : j < n) (hne : i ≠ j)
    (hadj : touchInt i j = true) :
    applyGraphColoring n bboxCand touchInt i ≠ applyGraphColoring n bboxCand touchInt j := by
  set adj := adjacencyOf n bboxCand touchInt with hadjdef
  have hirr : ∀ k, k ∉ adj k := fun k hmem => (mem_adjacencyOf.mp hmem).2.2.2.1 rfl
  have hsymm : ∀ a b, b ∈ adj a → a ∈ adj b := by
    intro a b hmem
    obtain ⟨ha, hb, _, hab, ht⟩ := mem_adjacencyOf.mp hmem
    have ht' : touchInt b a = true := (hts a b) ▸ ht
    exact mem_adjacencyOf.mpr ⟨hb, ha, htb b a ht', Ne.symm hab, ht'⟩
  have hij : j ∈ adj i :=
    mem_adjacencyOf.mpr ⟨hi, hj, htb i j hadj, hne, hadj⟩
  have hprop : ProperColoring adj (greedyAssign adj (wpOrder n adj) (fun _ => none)) :=
    greedyAssign_proper hirr hsymm _ _ (fun _ _ _ _ _ h => by simp at h)
  have hsi : (greedyAssign adj (wpOrder n adj) (fun _ => none) i).isSome :=
    greedyAssign_isSome_of_mem _ _ i (mem_wpOrder hi)
  have hsj : (greedyAssign adj (wpOrder n adj) (fun _ => none) j).isSome :=
    greedyAssign_isSome_of_mem _ _ j (mem_wpOrder hj)
  obtain ⟨ci, hci⟩ := Option.isSome_iff_exists.mp hsi
  obtain ⟨cj, hcj⟩ := Option.isSome_iff_exists.mp hsj
  show greedyAssign adj (wpOrder n adj) (fun _ => none) i ≠
    greedyAssign adj (wpOrder n adj) (fun _ => none) j
  rw [hci, hcj]
  intro h
  exact hprop i j hij ci cj hci hcj (Option.some_injective _ h)

/-- Witness for C1 at a concrete instance: two mutually adjacent polygons. -/
theorem apply_graph_coloring_adjacent_distinct_witness :
    applyGraphColoring 2 (fun _ _ => true) (fun i j => decide (i ≠ j)) 0 ≠
      applyGraphColoring 2 (fun _ _ => true) (fun i j => decide (i ≠ j)) 1 :=
  apply_graph_coloring_adjacent_distinct 2 (fun _ _ => true) (fun i j => decide (i ≠ j))
    (fun i j => by simp [ne_comm])
    (fun _ _ _ => rfl) 0 1 (by decide) (by decide) (by decide) (by decide)

/-- C2: the greedy coloring loop terminates on every adjacency graph (it is a
total function in this embedding, with the inner `while` bounded by explicit
fuel that provably suffices), assigns every node a color, and uses at most
`max degree + 1` distinct colors. -/
theorem apply_graph_coloring_total_and_bounded
    (n : ℕ) (bboxCand touchInt : ℕ → ℕ → Bool) :
    (∀ i, i < n → (applyGraphColoring n bboxCand touchInt i).isSome) ∧
    (colorsUsed n bboxCand touchInt).card ≤
      maxDegree n (adjacencyOf n bboxCand touchInt) + 1 := by
  set adj := adjacencyOf n bboxCand touchInt with hadjdef
  have htotal : ∀ i, i < n → (applyGraphColoring n bboxCand touchInt i).isSome := by
    intro i hi
    exact greedyAssign_isSome_of_mem _ _ i (mem_wpOrder hi)
  refine ⟨htotal, ?_⟩
  have hbnd : ColorsBounded adj (greedyAssign adj (wpOrder n adj) (fun _ => none)) :=
    greedyAssign_bounded _ _ (fun _ _ h => by simp at h)
  have hsub : colorsUsed n bboxCand touchInt ⊆
      Finset.range (maxDegree n adj + 1) := by
    intro c hc
    obtain ⟨i, hi, hval⟩ := Finset.mem_image.mp hc
    have hin : i < n := Finset.mem_range.mp hi
    obtain ⟨ci, hci⟩ := Option.isSome_iff_exists.mp (htotal i hin)
    have : c = ci := by
      rw [← hval, hci]; rfl
    subst this
    have hle : c ≤ (adj i).card := hbnd i c hci
    have hmax : (adj i).card ≤ maxDegree n adj :=
      Finset.le_sup (f := fun k => (adj k).card) hi
    exact Finset.mem_range.mpr (by omega)
  calc (colorsUsed n bboxCand touchInt).card
      ≤ (Finset.range (maxDegree n adj + 1)).card := Finset.card_le_card hsub
    _ = maxDegree n adj + 1 := Finset.card_range _

section DissolveLemmas

theorem dissolve_keys (rows : List (String × Geom)) :
    (dissolve_by_zip_code rows).map (fun r => r.1) =
      List.insertionSort (fun a b : String => a ≤ b) (rows.map Prod.fst).dedup := by
  unfold dissolve_by_zip_code
  rw [List.map_map]
  exact List.map_id _

theorem filter_fst_length_eq_count (rows : List (String × Geom)) (z : String) :
    (rows.filter (fun r => r.1 = z)).length = (rows.map Prod.fst).count z := by
  rw [← List.countP_eq_length_filter, List.count, List.countP_map]
  apply List.countP_congr
  intro x _
  simp

end DissolveLemmas

/-- C9: `dissolve_by_zip_code` returns exactly one row per distinct zip code
of the input cell set (its key list is a duplicate-free permutation of the
distinct input zips); each row's `point_count` is the number of input rows
carrying that zip code; and the `point_count` values sum to the total number
of input rows. -/
theorem dissolve_by_zip_code_spec (rows : List (String × Geom)) :
    ((dissolve_by_zip_code rows).map (fun r => r.1)).Perm (rows.map Prod.fst).dedup ∧
    ((dissolve_by_zip_code rows).map (fun r => r.1)).Nodup ∧
    (∀ r ∈ dissolve_by_zip_code rows,
      r.2.2 = (rows.filter (fun x => x.1 = r.1)).length) ∧
    ((dissolve_by_zip_code rows).map (fun r => r.2.2)).sum = rows.length := by
  have hperm : ((dissolve_by_zip_code rows).map (fun r => r.1)).Perm
      (rows.map Prod.fst).dedup := by
    rw [dissolve_keys]
    exact List.perm_insertionSort _ _
  refine ⟨hperm, hperm.nodup_iff.mpr (List.nodup_dedup _), ?_, ?_⟩
  · intro r hr
    unfold dissolve_by_zip_code at hr
    obtain ⟨z, _, rfl⟩ := List.mem_map.mp hr
    rfl
  · have hmap : (dissolve_by_zip_code rows).map (fun r => r.2.2) =
        (List.insertionSort (fun a b : String => a ≤ b) (rows.map Prod.fst).dedup).map
          (fun z => (rows.filter (fun r => r.1 = z)).length) := by
      unfold dissolve_by_zip_code
      rw [List.map_map]
      rfl
    rw [hmap]
    have hperm2 : ((List.insertionSort (fun a b : String => a ≤ b)
        (rows.map Prod.fst).dedup).map
          (fun z => (rows.filter (fun r => r.1 = z)).length)).Perm
        (((rows.map Prod.fst).dedup).map
          (fun z => (rows.filter (fun r => r.1 = z)).length)) :=
      (List.perm_insertionSort _ _).map _
    rw [hperm2.sum_eq]
    have : (((rows.map Prod.fst).dedup).map
        (fun z => (rows.filter (fun r => r.1 = z)).length)) =
        (((rows.map Prod.fst).dedup).map (fun z => (rows.map Prod.fst).count z)) := by
      apply List.map_congr_left
      intro z _
      exact filter_fst_length_eq_count rows z
    rw [this, List.sum_map_count_dedup_eq_length, List.length_map]

/-- C6 counterexample: a geometry that is still invalid after the
zero-distance-buffer repair is *not* omitted from the output of
`simplify_and_smooth` — the group survives, carrying the still-invalid
repaired geometry, so the claimed recheck-and-skip does not happen. -/
theorem repair_failure_not_skipped_counterexample :
    (simplify_and_smooth validPolyOnly [("10000", Geom.point (0, 0), 1)] 50).length = 1 ∧
    validPolyOnly ((simplify_and_smooth validPolyOnly
      [("10000", Geom.point (0, 0), 1)] 50).headD ("", Geom.point (0, 0), 0)).2.1
        = false := by
  exact ⟨rfl, rfl⟩

/-- C6 amended: a geometry reporting itself invalid after a construction step
is repaired exactly once by its zero-distance buffer and then used as-is: no
recheck takes place, and the group is never reported failed or omitted.  In
`simplify_and_smooth` every input row survives with its zip code and
point count, the geometry being the simplified one when it reports valid and
its zero-distance buffer otherwise; in `generate_voronoi_polygons` (four or
more points) every cell is the once-repaired clipped cell. -/
theorem invalid_repaired_once_never_skipped
    (valid : Geom → Bool) (rows : List (String × Geom × ℕ)) (tol : ℚ)
    (d : String × Geom × ℕ) (i : ℕ) (hi : i < rows.length)
    (unitDir : Pt → Pt) (voronoiOf : List Pt → VorData)
    (vrows : List (String × Pt)) (clip : Option Geom) (d2 : String × Geom)
    (i2 : ℕ) (h4 : ¬ vrows.length < 4)
    (hi2 : i2 < (generate_voronoi_polygons unitDir voronoiOf valid vrows clip).length) :
    (simplify_and_smooth valid rows tol).length = rows.length ∧
    (((simplify_and_smooth valid rows tol).getD i d).1 = (rows.getD i d).1 ∧
      ((simplify_and_smooth valid rows tol).getD i d).2.2 = (rows.getD i d).2.2 ∧
      ((simplify_and_smooth valid rows tol).getD i d).2.1 =
        (if valid (Geom.simplifyG (rows.getD i d).2.1 (meters_to_degrees tol)) = true
         then Geom.simplifyG (rows.getD i d).2.1 (meters_to_degrees tol)
         else Geom.buffer
           (Geom.simplifyG (rows.getD i d).2.1 (meters_to_degrees tol)) 0)) ∧
    (((generate_voronoi_polygons unitDir voronoiOf valid vrows clip).getD i2 d2).2 =
      (let fp := voronoi_finite_polygons unitDir (voronoiOf (vrows.map Prod.snd));
       let cell := applyClip clip
         (voronoiCellRaw (vrows.map Prod.snd) fp (i2, fp.1.getD i2 []));
       if valid cell = true then cell else Geom.buffer cell 0)) := by
  refine ⟨by simp [simplify_and_smooth], ?_, ?_⟩
  · have hgd : (simplify_and_smooth valid rows tol).getD i d =
        ((rows.getD i d).1,
          ensureValid valid (Geom.simplifyG (rows.getD i d).2.1 (meters_to_degrees tol)),
          (rows.getD i d).2.2) := by
      unfold simplify_and_smooth
      rw [List.getD_eq_getElem?_getD, List.getElem?_map,
        (List.getElem?_eq_getElem hi :
          rows[i]? = some rows[i])]
      simp [List.getD_eq_getElem?_getD, List.getElem?_eq_getElem hi]
    rw [hgd]
    exact ⟨rfl, rfl, rfl⟩
  · unfold generate_voronoi_polygons at hi2 ⊢
    rw [if_neg (by simpa using h4)] at hi2 ⊢
    set coords := vrows.map Prod.snd with hcoords
    set fp := voronoi_finite_polygons unitDir (voronoiOf coords) with hfp
    have hlen : i2 < ((vrows.map Prod.fst).zip
        (fp.1.enum.map (voronoiCell valid clip coords fp))).length := hi2
    rw [List.length_zip, List.length_map, List.length_map, List.enum_length] at hlen
    have hif : i2 < fp.1.length := lt_of_lt_of_le hlen (min_le_right _ _)
    rw [List.getD_eq_getElem _ d2 hi2, List.getElem_zip, List.getElem_map,
      List.getElem_map, List.getElem_enum]
    show voronoiCell valid clip coords fp (i2, fp.1[i2]) =
      (let cell := applyClip clip (voronoiCellRaw coords fp (i2, fp.1.getD i2 []));
       if valid cell = true then cell else Geom.buffer cell 0)
    rw [List.getD_eq_getElem _ _ hif]
    rfl

/-- Witness for the amended C6 theorem at concrete inputs. -/
theorem invalid_repaired_once_never_skipped_witness :
    (simplify_and_smooth validPolyOnly [("10000", Geom.point (0, 0), 1)] 50).length = 1 ∧
    (((simplify_and_smooth validPolyOnly [("10000", Geom.point (0, 0), 1)] 50).getD 0
        ("", Geom.point (0, 0), 0)).1 =
      (([("10000", Geom.point (0, 0), 1)] :
        List (String × Geom × ℕ)).getD 0 ("", Geom.point (0, 0), 0)).1 ∧
      ((simplify_and_smooth validPolyOnly [("10000", Geom.point (0, 0), 1)] 50).getD 0
        ("", Geom.point (0, 0), 0)).2.2 =
      (([("10000", Geom.point (0, 0), 1)] :
        List (String × Geom × ℕ)).getD 0 ("", Geom.point (0, 0), 0)).2.2 ∧
      ((simplify_and_smooth validPolyOnly [("10000", Geom.point (0, 0), 1)] 50).getD 0
        ("", Geom.point (0, 0), 0)).2.1 =
        (if validPolyOnly (Geom.simplifyG
            (([("10000", Geom.point (0, 0), 1)] :
              List (String × Geom × ℕ)).getD 0 ("", Geom.point (0, 0), 0)).2.1
            (meters_to_degrees 50)) = true
         then Geom.simplifyG
            (([("10000", Geom.point (0, 0), 1)] :
              List (String × Geom × ℕ)).getD 0 ("", Geom.point (0, 0), 0)).2.1
            (meters_to_degrees 50)
         else Geom.buffer (Geom.simplifyG
            (([("10000", Geom.point (0, 0), 1)] :
              List (String × Geom × ℕ)).getD 0 ("", Geom.point (0, 0), 0)).2.1
            (meters_to_degrees 50)) 0)) ∧
    (((generate_voronoi_polygons id (fun _ => vor4) validPolyOnly rows4
        none).getD 0 ("", Geom.point (0, 0))).2 =
      (let fp := voronoi_finite_polygons id ((fun _ => vor4) (rows4.map Prod.snd));
       let cell := applyClip none
         (voronoiCellRaw (rows4.map Prod.snd) fp (0, fp.1.getD 0 []));
       if validPolyOnly cell = true then cell else Geom.buffer cell 0)) :=
  invalid_repaired_once_never_skipped validPolyOnly
    [("10000", Geom.point (0, 0), 1)] 50 ("", Geom.point (0, 0), 0) 0 (by decide)
    id (fun _ => vor4) rows4 none ("", Geom.point (0, 0)) 0 (by decide) (by decide)

/-- C7 counterexample: with the boundary file missing and only two input
points, the fallback clip boundary is the buffered bounding box of the
points (lines 228-234), not the buffered convex hull of all points that the
claim describes. -/
theorem boundary_fallback_counterexample :
    isHullBufferGeom (mainClipBoundary validAlways (fun _ => false) (fun _ => [])
      none [(0, 0), (1, 0)] 2000) = false ∧
    isBoxGeom (mainClipBoundary validAlways (fun _ => false) (fun _ => [])
      none [(0, 0), (1, 0)] 2000) = true :=
  ⟨rfl, rfl⟩

/-- C7 amended: when the boundary file is missing or empty, no error is
surfaced — the pipeline falls back to `create_clip_boundary_from_hull`,
which is the convex hull of all points buffered outward by the configured
margin when there are at least three points, and the points' bounding box
expanded by that margin when there are fewer; clipping then proceeds with
that polygon. -/
theorem boundary_missing_empty_fallback
    (valid isMulti : Geom → Bool) (hullIdx : List Pt → List ℕ)
    (file : Option (List Geom)) (coords : List Pt) (m : ℚ)
    (hfile : file = none ∨ file = some []) :
    mainClipBoundary valid isMulti hullIdx file coords m =
      create_clip_boundary_from_hull hullIdx coords m ∧
    mainClipBoundary valid isMulti hullIdx file coords m =
      (if coords.length < 3 then
        Geom.boxG (minQ (coords.map Prod.fst) - meters_to_degrees m)
          (minQ (coords.map Prod.snd) - meters_to_degrees m)
          (maxQ (coords.map Prod.fst) + meters_to_degrees m)
          (maxQ (coords.map Prod.snd) + meters_to_degrees m)
       else
        Geom.buffer
          (Geom.polygon ((hullIdx coords).map (fun i => coords.getD i (0, 0))))
          (meters_to_degrees m)) := by
  have hload : load_boundary_from_file valid isMulti file = none := by
    rcases hfile with rfl | rfl
    · rfl
    · rfl
  have h1 : mainClipBoundary valid isMulti hullIdx file coords m =
      create_clip_boundary_from_hull hullIdx coords m := by
    unfold mainClipBoundary
    rw [hload]
  refine ⟨h1, ?_⟩
  rw [h1]
  unfold create_clip_boundary_from_hull
  by_cases h3 : coords.length < 3
  · rw [if_pos h3]
  · rw [if_neg h3]

/-- Witness for the amended C7 theorem: three points, missing file. -/
theorem boundary_missing_empty_fallback_witness :
    mainClipBoundary validAlways (fun _ => false) (fun _ => [0, 1, 2])
        none [(0, 0), (1, 0), (0, 1)] 2000 =
      create_clip_boundary_from_hull (fun _ => [0, 1, 2]) [(0, 0), (1, 0), (0, 1)] 2000 ∧
    mainClipBoundary validAlways (fun _ => false) (fun _ => [0, 1, 2])
        none [(0, 0), (1, 0), (0, 1)] 2000 =
      (if ([(0, 0), (1, 0), (0, 1)] : List Pt).length < 3 then
        Geom.boxG (minQ (([(0, 0), (1, 0), (0, 1)] : List Pt).map Prod.fst) - meters_to_degrees 2000)
          (minQ (([(0, 0), (1, 0), (0, 1)] : List Pt).map Prod.snd) - meters_to_degrees 2000)
          (maxQ (([(0, 0), (1, 0), (0, 1)] : List Pt).map Prod.fst) + meters_to_degrees 2000)
          (maxQ (([(0, 0), (1, 0), (0, 1)] : List Pt).map Prod.snd) + meters_to_degrees 2000)
       else
        Geom.buffer
          (Geom.polygon (((fun (_ : List Pt) => [0, 1, 2]) ([(0, 0), (1, 0), (0, 1)] : List Pt)).map
            (fun i => ([(0, 0), (1, 0), (0, 1)] : List Pt).getD i (0, 0))))
          (meters_to_degrees 2000)) :=
  boundary_missing_empty_fallback validAlways (fun _ => false) (fun _ => [0, 1, 2])
    none [(0, 0), (1, 0), (0, 1)] 2000 (Or.inl rfl)

/-- C3 counterexample: a dataset consisting of one single-point group is
handled by the buffer fallback for its geometry, yet the pipeline's `method`
column (line 393) is the constant `'voronoi'`, never `'buffer'`. -/
theorem single_point_method_counterexample :
    ((pipeline id (fun _ => trivialVor) validAlways (fun _ => false) (fun _ => [])
        none [("10000", (0, 0))] 2000 50 (fun _ _ => false) (fun _ _ => false)).map
      (fun r => r.method)) = ["voronoi"] ∧ ("voronoi" : String) ≠ "buffer" :=
  ⟨rfl, by decide⟩

/-- C3 amended: the fewer-than-4-points test is applied to the whole input
point set, not per group — when the full dataset has fewer than 4 points,
the Voronoi construction is skipped and every point receives the circular
buffer of radius `BUFFER_RADIUS_METERS` around it; the `method` recorded for
every output row is the constant `'voronoi'` (there is no `'buffer'` method
value). -/
theorem small_dataset_buffer_fallback
    (unitDir : Pt → Pt) (voronoiOf : List Pt → VorData) (valid isMulti : Geom → Bool)
    (hullIdx : List Pt → List ℕ) (file : Option (List Geom))
    (rows df : List (String × Pt)) (clip : Option Geom) (cbm stm : ℚ)
    (bboxCand touchInt : ℕ → ℕ → Bool)
    (h : rows.length < 4) :
    generate_voronoi_polygons unitDir voronoiOf valid rows clip =
      rows.map (fun r =>
        (r.1, Geom.buffer (Geom.point r.2) (meters_to_degrees BUFFER_RADIUS_METERS))) ∧
    (pipeline unitDir voronoiOf valid isMulti hullIdx file df cbm stm
        bboxCand touchInt).map (fun r => r.method) =
      List.replicate (pipeline unitDir voronoiOf valid isMulti hullIdx file df cbm stm
        bboxCand touchInt).length "voronoi" := by
  constructor
  · unfold generate_voronoi_polygons
    rw [if_pos (by simpa using h)]
  · unfold pipeline
    rw [List.map_map, List.length_map]
    exact List.map_const' _ _

/-- Witness for the amended C3 theorem at a single-point dataset. -/
theorem small_dataset_buffer_fallback_witness :
    generate_voronoi_polygons id (fun _ => trivialVor) validAlways
        [("10000", (0, 0))] none =
      ([("10000", (0, 0))] : List (String × Pt)).map (fun r =>
        (r.1, Geom.buffer (Geom.point r.2) (meters_to_degrees BUFFER_RADIUS_METERS))) ∧
    (pipeline id (fun _ => trivialVor) validAlways (fun _ => false) (fun _ => [])
        none [("10000", (0, 0))] 2000 50 (fun _ _ => false) (fun _ _ => false)).map
      (fun r => r.method) =
      List.replicate (pipeline id (fun _ => trivialVor) validAlways (fun _ => false)
        (fun _ => []) none [("10000", (0, 0))] 2000 50 (fun _ _ => false)
        (fun _ _ => false)).length "voronoi" :=
  small_dataset_buffer_fallback id (fun _ => trivialVor) validAlways (fun _ => false)
    (fun _ => []) none [("10000", (0, 0))] [("10000", (0, 0))] none 2000 50
    (fun _ _ => false) (fun _ _ => false) (by decide)

section VoronoiLength

theorem finitizeRegion_fst_length (center : Pt) (radius : ℚ) (unitDir : Pt → Pt)
    (vor : VorData) (st : List (List ℤ) × List Pt) (pr : ℕ × ℕ) :
    (finitizeRegion center radius unitDir vor st pr).1.length = st.1.length + 1 := by
  unfold finitizeRegion
  by_cases h : (vor.regions.getD pr.2 []).all (fun v => 0 ≤ v)
  · rw [if_pos h]
    simp
  · rw [if_neg h]
    simp

theorem foldl_finitizeRegion_length (center : Pt) (radius : ℚ) (unitDir : Pt → Pt)
    (vor : VorData) :
    ∀ (l : List (ℕ × ℕ)) (st : List (List ℤ) × List Pt),
      (l.foldl (finitizeRegion center radius unitDir vor) st).1.length =
        st.1.length + l.length := by
  intro l
  induction l with
  | nil => intro st; simp
  | cons a l ih =>
    intro st
    rw [List.foldl_cons, ih, finitizeRegion_fst_length]
    simp
    omega

theorem voronoi_finite_polygons_length (unitDir : Pt → Pt) (vor : VorData) :
    (voronoi_finite_polygons unitDir vor).1.length = vor.point_region.length := by
  unfold voronoi_finite_polygons
  rw [foldl_finitizeRegion_length]
  simp

end VoronoiLength

/-- C10: in the four-or-more-points path, `generate_voronoi_polygons` still
returns one cell per input point, and for every finitized region with fewer
than 3 vertices no polygon is built from the region — the cell geometry is
the fixed-radius circular buffer around that region's generating point
(clipped and validity-repaired like every other cell).  The hypothesis
`hpr` records scipy's invariant that `point_region` has one entry per input
point. -/
theorem degenerate_region_buffer_substitute
    (unitDir : Pt → Pt) (voronoiOf : List Pt → VorData) (valid : Geom → Bool)
    (rows : List (String × Pt)) (clip : Option Geom) (d2 : String × Geom) (i : ℕ)
    (h4 : ¬ rows.length < 4)
    (hpr : (voronoiOf (rows.map Prod.snd)).point_region.length = rows.length)
    (hi : i < rows.length)
    (hshort : ((voronoi_finite_polygons unitDir
      (voronoiOf (rows.map Prod.snd))).1.getD i []).length < 3) :
    (generate_voronoi_polygons unitDir voronoiOf valid rows clip).length = rows.length ∧
    ((generate_voronoi_polygons unitDir voronoiOf valid rows clip).getD i d2) =
      ((rows.map Prod.fst).getD i d2.1,
        ensureValid valid (applyClip clip
          (Geom.buffer (Geom.point ((rows.map Prod.snd).getD i (0, 0)))
            (meters_to_degrees BUFFER_RADIUS_METERS)))) := by
  have hfl : (voronoi_finite_polygons unitDir
      (voronoiOf (rows.map Prod.snd))).1.length = rows.length := by
    rw [voronoi_finite_polygons_length]
    exact hpr
  have hlen : (generate_voronoi_polygons unitDir voronoiOf valid rows clip).length
      = rows.length := by
    unfold generate_voronoi_polygons
    rw [if_neg (by simpa using h4)]
    rw [List.length_zip, List.length_map, List.length_map, List.enum_length, hfl]
    simp
  refine ⟨hlen, ?_⟩
  unfold generate_voronoi_polygons
  rw [if_neg (by simpa using h4)]
  set coords := rows.map Prod.snd with hcoords
  set fp := voronoi_finite_polygons unitDir (voronoiOf coords) with hfp
  have hif : i < fp.1.length := by rw [hfp, hfl]; exact hi
  have hi1 : i < (rows.map Prod.fst).length := by simpa using hi
  have hiz : i < ((rows.map Prod.fst).zip
      (fp.1.enum.map (voronoiCell valid clip coords fp))).length := by
    rw [List.length_zip, List.length_map, List.length_map, List.enum_length]
    exact lt_min hi hif
  rw [List.getD_eq_getElem _ d2 hiz, List.getElem_zip, List.getElem_map,
    List.getElem_map, List.getElem_enum]
  have hshort' : fp.1[i].length < 3 := by
    rw [← List.getD_eq_getElem fp.1 [] hif]
    exact hshort
  have hcell : voronoiCell valid clip coords fp (i, fp.1[i]) =
      ensureValid valid (applyClip clip
        (Geom.buffer (Geom.point (coords.getD i (0, 0)))
          (meters_to_degrees BUFFER_RADIUS_METERS))) := by
    unfold voronoiCell voronoiCellRaw
    rw [if_pos hshort']
  rw [hcell]
  rw [List.getD_eq_getElem _ d2.1 hi1, List.getElem_map]

/-- Witness for C10: four points whose Voronoi structure has single-vertex
(degenerate) regions. -/
theorem degenerate_region_buffer_substitute_witness :
    (generate_voronoi_polygons id (fun _ => vor4) validAlways rows4 none).length
      = rows4.length ∧
    ((generate_voronoi_polygons id (fun _ => vor4) validAlways rows4
        none).getD 0 ("", Geom.point (0, 0))) =
      ((rows4.map Prod.fst).getD 0 "",
        ensureValid validAlways (applyClip none
          (Geom.buffer (Geom.point ((rows4.map Prod.snd).getD 0 (0, 0)))
            (meters_to_degrees BUFFER_RADIUS_METERS)))) :=
  degenerate_region_buffer_substitute id (fun _ => vor4) validAlways rows4 none
    ("", Geom.point (0, 0)) 0 (by decide) (by decide) (by decide) (by decide)

section DensityLemmas

theorem densityToParam_mem (pmin pmax lo hi d : ℚ) (hp : pmin ≤ pmax) :
    (pmin : ℝ) ≤ densityToParam pmin pmax lo hi d ∧
      densityToParam pmin pmax lo hi d ≤ (pmax : ℝ) := by
  unfold densityToParam
  have hp' : (pmin : ℝ) ≤ (pmax : ℝ) := by exact_mod_cast hp
  split_ifs
  · exact ⟨le_refl _, hp'⟩
  · exact ⟨hp', le_refl _⟩
  · constructor
    · exact le_max_left _ _
    · exact max_le hp' (min_le_left _ _)

end DensityLemmas

/-- C8: the (spec-modelled) density-to-parameter mapping is monotonically
non-increasing — for a fixed parameter range, a higher estimated density
never yields a larger parameter than a lower density — and its value always
lies within `[min, max]`. -/
theorem density_param_monotone_clamped
    (pmin pmax lo hi d d₁ d₂ : ℚ) (hp : pmin ≤ pmax) (hlo : 0 < lo) (hlh : lo < hi)
    (h₁ : 0 < d₁) (h₁₂ : d₁ ≤ d₂) :
    densityToParam pmin pmax lo hi d₂ ≤ densityToParam pmin pmax lo hi d₁ ∧
    (pmin : ℝ) ≤ densityToParam pmin pmax lo hi d ∧
    densityToParam pmin pmax lo hi d ≤ (pmax : ℝ) := by
  refine ⟨?_, (densityToParam_mem pmin pmax lo hi d hp).1,
    (densityToParam_mem pmin pmax lo hi d hp).2⟩
  by_cases hA : hi ≤ d₂
  · have h2 : densityToParam pmin pmax lo hi d₂ = (pmin : ℝ) := by
      unfold densityToParam
      rw [if_pos hA]
    rw [h2]
    exact (densityToParam_mem pmin pmax lo hi d₁ hp).1
  · have hA1 : ¬ hi ≤ d₁ := fun h => hA (le_trans h h₁₂)
    by_cases hB : d₂ ≤ lo
    · have hB1 : d₁ ≤ lo := le_trans h₁₂ hB
      have h2 : densityToParam pmin pmax lo hi d₂ = (pmax : ℝ) := by
        unfold densityToParam
        rw [if_neg hA, if_pos hB]
      have h1 : densityToParam pmin pmax lo hi d₁ = (pmax : ℝ) := by
        unfold densityToParam
        rw [if_neg hA1, if_pos hB1]
      rw [h1, h2]
    · by_cases hC : d₁ ≤ lo
      · have h1 : densityToParam pmin pmax lo hi d₁ = (pmax : ℝ) := by
          unfold densityToParam
          rw [if_neg hA1, if_pos hC]
        rw [h1]
        exact (densityToParam_mem pmin pmax lo hi d₂ hp).2
      · have hd1 : (lo : ℚ) < d₁ := lt_of_not_le hC
        have hd2 : (lo : ℚ) < d₂ := lt_of_not_le hB
        have hp' : (pmin : ℝ) ≤ (pmax : ℝ) := by exact_mod_cast hp
        have hlo' : (0 : ℝ) < (lo : ℝ) := by exact_mod_cast hlo
        have hhi' : (lo : ℝ) < (hi : ℝ) := by exact_mod_cast hlh
        have hden : (0 : ℝ) < Real.log hi - Real.log lo := by
          have := Real.log_lt_log hlo' hhi'
          linarith
        have hlog : Real.log (d₁ : ℝ) ≤ Real.log (d₂ : ℝ) := by
          rcases eq_or_lt_of_le h₁₂ with h | h
          · rw [h]
          · exact le_of_lt (Real.log_lt_log (by exact_mod_cast h₁) (by exact_mod_cast h))
        have ht : (Real.log d₁ - Real.log lo) / (Real.log hi - Real.log lo) ≤
            (Real.log d₂ - Real.log lo) / (Real.log hi - Real.log lo) :=
          (div_le_div_iff_of_pos_right hden).mpr (sub_le_sub_right hlog _)
        have hinner : (pmax : ℝ) - ((pmax : ℝ) - (pmin : ℝ)) *
              ((Real.log d₂ - Real.log lo) / (Real.log hi - Real.log lo)) ≤
            (pmax : ℝ) - ((pmax : ℝ) - (pmin : ℝ)) *
              ((Real.log d₁ - Real.log lo) / (Real.log hi - Real.log lo)) := by
          have hnn : (0 : ℝ) ≤ (pmax : ℝ) - (pmin : ℝ) := by linarith
          nlinarith [mul_le_mul_of_nonneg_left ht hnn]
        have h1 : densityToParam pmin pmax lo hi d₁ = max (pmin : ℝ) (min (pmax : ℝ)
            ((pmax : ℝ) - ((pmax : ℝ) - (pmin : ℝ)) *
              ((Real.log d₁ - Real.log lo) / (Real.log hi - Real.log lo)))) := by
          unfold densityToParam
          rw [if_neg hA1, if_neg hC]
        have h2 : densityToParam pmin pmax lo hi d₂ = max (pmin : ℝ) (min (pmax : ℝ)
            ((pmax : ℝ) - ((pmax : ℝ) - (pmin : ℝ)) *
              ((Real.log d₂ - Real.log lo) / (Real.log hi - Real.log lo)))) := by
          unfold densityToParam
          rw [if_neg hA, if_neg hB]
        rw [h1, h2]
        exact max_le_max (le_refl _) (min_le_min (le_refl _) hinner)

/-- Witness for C8 at the configuration's parameter range. -/
theorem density_param_monotone_clamped_witness :
    densityToParam EDGE_LENGTH_BASE_METERS EDGE_LENGTH_MAX_METERS 10
        EDGE_DENSITY_THRESHOLD 60 ≤
      densityToParam EDGE_LENGTH_BASE_METERS EDGE_LENGTH_MAX_METERS 10
        EDGE_DENSITY_THRESHOLD 5 ∧
    (EDGE_LENGTH_BASE_METERS : ℝ) ≤
      densityToParam EDGE_LENGTH_BASE_METERS EDGE_LENGTH_MAX_METERS 10
        EDGE_DENSITY_THRESHOLD 30 ∧
    densityToParam EDGE_LENGTH_BASE_METERS EDGE_LENGTH_MAX_METERS 10
        EDGE_DENSITY_THRESHOLD 30 ≤ (EDGE_LENGTH_MAX_METERS : ℝ) :=
  density_param_monotone_clamped EDGE_LENGTH_BASE_METERS EDGE_LENGTH_MAX_METERS 10
    EDGE_DENSITY_THRESHOLD 30 5 60 (by decide) (by decide) (by decide)
    (by decide) (by decide)

section AngleOrder

theorem angClass_zero_iff (v : Pt) : angClass v = 0 ↔ v.2 < 0 := by
  unfold angClass
  split_ifs with h1 h2 h3
  · simp [h1]
  · simpa using h1
  · simpa using h1
  · simpa using h1

theorem angClass_one_iff (v : Pt) : angClass v = 1 ↔ (v.2 = 0 ∧ 0 ≤ v.1) := by
  unfold angClass
  split_ifs with h1 h2 h3
  · constructor
    · intro h; exact absurd h (by decide)
    · intro h; exfalso; linarith [h.1]
  · simp [h2]
  · constructor
    · intro h; exact absurd h (by decide)
    · intro h; exact absurd h h2
  · constructor
    · intro h; exact absurd h (by decide)
    · intro h; exact absurd h h2

theorem angClass_two_iff (v : Pt) : angClass v = 2 ↔ 0 < v.2 := by
  unfold angClass
  split_ifs with h1 h2 h3
  · constructor
    · intro h; exact absurd h (by decide)
    · intro h; exfalso; linarith
  · constructor
    · intro h; exact absurd h (by decide)
    · intro h; exfalso; linarith [h2.1]
  · simp [h3]
  · constructor
    · intro h; exact absurd h (by decide)
    · intro h; exact absurd h h3

theorem angClass_three_iff (v : Pt) : angClass v = 3 ↔ (v.2 = 0 ∧ v.1 < 0) := by
  unfold angClass
  split_ifs with h1 h2 h3
  · constructor
    · intro h; exact absurd h (by decide)
    · intro h; exfalso; linarith [h.1]
  · constructor
    · intro h; exact absurd h (by decide)
    · intro h; exfalso; linarith [h.2, h2.2, h.1, h2.1]
  · constructor
    · intro h; exact absurd h (by decide)
    · intro h; exfalso; linarith [h.1]
  · constructor
    · intro _
      have he : v.2 = 0 := le_antisymm (not_lt.mp h3) (not_lt.mp h1)
      refine ⟨he, ?_⟩
      by_contra hge
      push_neg at hge
      exact h2 ⟨he, hge⟩
    · intro _; rfl

theorem angClass_le_three (v : Pt) : angClass v ≤ 3 := by
  unfold angClass
  split_ifs <;> omega

theorem angLe_iff (v w : Pt) : AngLe v w ↔
    (angClass v < angClass w ∨ (angClass v = angClass w ∧
      ((angClass v = 1 ∨ angClass v = 3) ∨ 0 ≤ cross v w))) := by
  unfold AngLe angLeB
  rw [decide_eq_true_iff]

theorem cross_skew (v w : Pt) : cross w v = - cross v w := by
  unfold cross; ring

theorem cross_self (v : Pt) : cross v v = 0 := by
  unfold cross; ring

theorem cross_identity (u v w : Pt) :
    cross u w * v.2 = cross u v * w.2 + cross v w * u.2 := by
  unfold cross; ring

theorem angLe_refl (v : Pt) : AngLe v v := by
  rw [angLe_iff]
  right
  exact ⟨rfl, Or.inr (le_of_eq (cross_self v).symm)⟩

theorem angLe_total (v w : Pt) : AngLe v w ∨ AngLe w v := by
  rcases lt_trichotomy (angClass v) (angClass w) with h | h | h
  · exact Or.inl ((angLe_iff v w).mpr (Or.inl h))
  · by_cases h13 : angClass v = 1 ∨ angClass v = 3
    · exact Or.inl ((angLe_iff v w).mpr (Or.inr ⟨h, Or.inl h13⟩))
    · rcases le_total 0 (cross v w) with hc | hc
      · exact Or.inl ((angLe_iff v w).mpr (Or.inr ⟨h, Or.inr hc⟩))
      · refine Or.inr ((angLe_iff w v).mpr (Or.inr ⟨h.symm, Or.inr ?_⟩))
        rw [cross_skew]
        linarith
  · exact Or.inr ((angLe_iff w v).mpr (Or.inl h))

theorem cross_nonneg_trans {u v w : Pt}
    (hcls : angClass u = angClass v ∧ angClass v = angClass w)
    (hne13 : ¬ (angClass u = 1 ∨ angClass u = 3))
    (h1 : 0 ≤ cross u v) (h2 : 0 ≤ cross v w) : 0 ≤ cross u w := by
  have hle := angClass_le_three u
  have h02 : angClass u = 0 ∨ angClass u = 2 := by omega
  have hid := cross_identity u v w
  rcases h02 with h0 | h2'
  · have hu : u.2 < 0 := (angClass_zero_iff u).mp h0
    have hv : v.2 < 0 := (angClass_zero_iff v).mp (hcls.1 ▸ h0)
    have hw : w.2 < 0 := (angClass_zero_iff w).mp ((hcls.1.trans hcls.2) ▸ h0)
    nlinarith
  · have hu : 0 < u.2 := (angClass_two_iff u).mp h2'
    have hv : 0 < v.2 := (angClass_two_iff v).mp (hcls.1 ▸ h2')
    have hw : 0 < w.2 := (angClass_two_iff w).mp ((hcls.1.trans hcls.2) ▸ h2')
    nlinarith

theorem angLe_trans {u v w : Pt} (huv : AngLe u v) (hvw : AngLe v w) : AngLe u w := by
  rw [angLe_iff] at huv hvw ⊢
  rcases huv with h1 | ⟨h1, h1'⟩ <;> rcases hvw with h2 | ⟨h2, h2'⟩
  · exact Or.inl (lt_trans h1 h2)
  · exact Or.inl (h2 ▸ h1)
  · exact Or.inl (h1 ▸ h2)
  · refine Or.inr ⟨h1.trans h2, ?_⟩
    rcases h1' with h13 | hx
    · exact Or.inl h13
    · rcases h2' with h13 | hy
      · exact Or.inl (h1 ▸ h13)
      · by_cases h13 : angClass u = 1 ∨ angClass u = 3
        · exact Or.inl h13
        · exact Or.inr (cross_nonneg_trans ⟨h1, h2⟩ h13 hx hy)

theorem angLt_of_le_not_eq {v w : Pt} (h : AngLe v w) (hne : ¬ AngEq v w) :
    AngLt v w := by
  refine ⟨h, fun hwv => hne ⟨h, hwv⟩⟩

theorem angLe_of_not_angLe {v w : Pt} (h : ¬ AngLe v w) : AngLe w v :=
  (angLe_total v w).resolve_left h

theorem class_one_pos {v : Pt} (hv : v ≠ (0, 0)) (h : angClass v = 1) :
    v.2 = 0 ∧ 0 < v.1 := by
  obtain ⟨h2, h1⟩ := (angClass_one_iff v).mp h
  refine ⟨h2, ?_⟩
  rcases eq_or_lt_of_le h1 with he | hl
  · exfalso
    apply hv
    have : v = (v.1, v.2) := rfl
    rw [this, ← he, h2]
  · exact hl

theorem angLt_class_lt {u w : Pt} (h : AngLt u w) (hc : cross u w ≤ 0) :
    angClass u < angClass w := by
  rcases (angLe_iff u w).mp h.1 with hl | ⟨heq, hd⟩
  · exact hl
  · exfalso
    apply h.2
    rw [angLe_iff]
    rcases hd with h13 | hx
    · exact Or.inr ⟨heq.symm, Or.inl (heq ▸ h13)⟩
    · have hz : cross u w = 0 := le_antisymm hc hx
      refine Or.inr ⟨heq.symm, Or.inr ?_⟩
      rw [cross_skew, hz, neg_zero]

/-- The reflex-cone lemma, left side: if the angular step from `u` to `w`
is at least `π` (consecutive in sorted order but with non-positive cross
product), every vector angularly at most `u` lies in the closed cone from
`w` back to `u`. -/
theorem reflex_cone_left (u w x : Pt) (hu : u ≠ (0, 0)) (hw : w ≠ (0, 0))
    (hlt : AngLt u w) (hc : cross u w ≤ 0) (hx : AngLe x u) :
    0 ≤ cross w x ∧ 0 ≤ cross x u := by
  have hcl : angClass u < angClass w := angLt_class_lt hlt hc
  have hw3 := angClass_le_three w
  have hx' := (angLe_iff x u).mp hx
  rcases (by omega : angClass w = 1 ∨ angClass w = 2 ∨ angClass w = 3) with hw1 | hw2 | hwc
  · -- (cu, cw) = (0, 1) is impossible
    exfalso
    have hu0 : angClass u = 0 := by omega
    have hu2 : u.2 < 0 := (angClass_zero_iff u).mp hu0
    obtain ⟨hwy, hwx⟩ := class_one_pos hw hw1
    have : cross u w = u.1 * w.2 - u.2 * w.1 := rfl
    rw [this, hwy] at hc
    nlinarith
  · -- cw = 2
    have hwy : 0 < w.2 := (angClass_two_iff w).mp hw2
    rcases (by omega : angClass u = 0 ∨ angClass u = 1) with hu0 | hu1
    · -- main case (0, 2)
      have hu2 : u.2 < 0 := (angClass_zero_iff u).mp hu0
      have hxu : angClass x = 0 ∧ 0 ≤ cross x u := by
        rcases hx' with hl | ⟨heq, hd⟩
        · omega
        · rcases hd with h13 | hcx
          · exfalso; omega
          · exact ⟨heq.trans hu0, hcx⟩
      have hx2 : x.2 < 0 := (angClass_zero_iff x).mp hxu.1
      refine ⟨?_, hxu.2⟩
      have hid := cross_identity w u x
      have hs1 : cross w u = - cross u w := cross_skew u w
      have hs2 : cross u x = - cross x u := cross_skew x u
      nlinarith [hxu.2]
    · -- (1, 2) is impossible
      exfalso
      obtain ⟨huy, hux⟩ := class_one_pos hu hu1
      have : cross u w = u.1 * w.2 - u.2 * w.1 := rfl
      rw [this, huy] at hc
      nlinarith
  · -- cw = 3
    obtain ⟨hwy, hwx⟩ := (angClass_three_iff w).mp hwc
    rcases (by omega : angClass u = 0 ∨ angClass u = 1 ∨ angClass u = 2)
      with hu0 | hu1 | hu2
    · -- (0, 3)
      have hu2 : u.2 < 0 := (angClass_zero_iff u).mp hu0
      have hxu : angClass x = 0 ∧ 0 ≤ cross x u := by
        rcases hx' with hl | ⟨heq, hd⟩
        · omega
        · rcases hd with h13 | hcx
          · exfalso; omega
          · exact ⟨heq.trans hu0, hcx⟩
      have hx2 : x.2 < 0 := (angClass_zero_iff x).mp hxu.1
      refine ⟨?_, hxu.2⟩
      have : cross w x = w.1 * x.2 - w.2 * x.1 := rfl
      rw [this, hwy]
      nlinarith
    · -- (1, 3)
      obtain ⟨huy, hux⟩ := class_one_pos hu hu1
      have hxcases : angClass x = 0 ∨ angClass x = 1 := by
        rcases hx' with hl | ⟨heq, _⟩
        · omega
        · omega
      rcases hxcases with hx0 | hx1
      · have hx2 : x.2 < 0 := (angClass_zero_iff x).mp hx0
        constructor
        · have : cross w x = w.1 * x.2 - w.2 * x.1 := rfl
          rw [this, hwy]
          nlinarith
        · have : cross x u = x.1 * u.2 - x.2 * u.1 := rfl
          rw [this, huy]
          nlinarith
      · obtain ⟨hxy, hxx⟩ := (angClass_one_iff x).mp hx1
        constructor
        · have : cross w x = w.1 * x.2 - w.2 * x.1 := rfl
          rw [this, hwy, hxy]
          ring_nf
          exact le_refl 0
        · have : cross x u = x.1 * u.2 - x.2 * u.1 := rfl
          rw [this, huy, hxy]
          ring_nf
          exact le_refl 0
    · -- (2, 3) is impossible
      exfalso
      have huy : 0 < u.2 := (angClass_two_iff u).mp hu2
      have : cross u w = u.1 * w.2 - u.2 * w.1 := rfl
      rw [this, hwy] at hc
      nlinarith

/-- The reflex-cone lemma, right side: symmetric statement for vectors
angularly at least `w`. -/
theorem reflex_cone_right (u w x : Pt) (hu : u ≠ (0, 0)) (hw : w ≠ (0, 0))
    (hlt : AngLt u w) (hc : cross u w ≤ 0) (hx : AngLe w x) :
    0 ≤ cross w x ∧ 0 ≤ cross x u := by
  have hcl : angClass u < angClass w := angLt_class_lt hlt hc
  have hw3 := angClass_le_three w
  have hx3 := angClass_le_three x
  have hx' := (angLe_iff w x).mp hx
  rcases (by omega : angClass w = 1 ∨ angClass w = 2 ∨ angClass w = 3) with hw1 | hw2 | hwc
  · -- (cu, cw) = (0, 1) impossible (as in reflex_cone_left)
    exfalso
    have hu0 : angClass u = 0 := by omega
    have hu2 : u.2 < 0 := (angClass_zero_iff u).mp hu0
    obtain ⟨hwy, hwx⟩ := class_one_pos hw hw1
    have : cross u w = u.1 * w.2 - u.2 * w.1 := rfl
    rw [this, hwy] at hc
    nlinarith
  · -- cw = 2
    have hwy : 0 < w.2 := (angClass_two_iff w).mp hw2
    rcases (by omega : angClass u = 0 ∨ angClass u = 1) with hu0 | hu1
    · have hu2 : u.2 < 0 := (angClass_zero_iff u).mp hu0
      have hxcases : (angClass x = 2 ∧ 0 ≤ cross w x) ∨ angClass x = 3 := by
        rcases hx' with hl | ⟨heq, hd⟩
        · omega
        · rcases hd with h13 | hcx
          · exfalso; omega
          · exact Or.inl ⟨heq.symm.trans hw2, hcx⟩
      rcases hxcases with ⟨hx2c, hwxc⟩ | hx3c
      · have hx2 : 0 < x.2 := (angClass_two_iff x).mp hx2c
        refine ⟨hwxc, ?_⟩
        have hid := cross_identity x w u
        have hs1 : cross x w = - cross w x := cross_skew w x
        have hs2 : cross w u = - cross u w := cross_skew u w
        nlinarith
      · obtain ⟨hxy, hxx⟩ := (angClass_three_iff x).mp hx3c
        constructor
        · have : cross w x = w.1 * x.2 - w.2 * x.1 := rfl
          rw [this, hxy]
          nlinarith
        · have : cross x u = x.1 * u.2 - x.2 * u.1 := rfl
          rw [this, hxy]
          nlinarith
    · -- (1, 2) impossible
      exfalso
      obtain ⟨huy, hux⟩ := class_one_pos hu hu1
      have : cross u w = u.1 * w.2 - u.2 * w.1 := rfl
      rw [this, huy] at hc
      nlinarith
  · -- cw = 3, so cx = 3
    obtain ⟨hwy, hwx⟩ := (angClass_three_iff w).mp hwc
    have hx3c : angClass x = 3 := by
      rcases hx' with hl | ⟨heq, _⟩
      · omega
      · omega
    obtain ⟨hxy, hxx⟩ := (angClass_three_iff x).mp hx3c
    rcases (by omega : angClass u = 0 ∨ angClass u = 1 ∨ angClass u = 2)
      with hu0 | hu1 | hu2
    · have hu2 : u.2 < 0 := (angClass_zero_iff u).mp hu0
      constructor
      · have : cross w x = w.1 * x.2 - w.2 * x.1 := rfl
        rw [this, hxy, hwy]
        ring_nf
        exact le_refl 0
      · have : cross x u = x.1 * u.2 - x.2 * u.1 := rfl
        rw [this, hxy]
        nlinarith
    · obtain ⟨huy, hux⟩ := class_one_pos hu hu1
      constructor
      · have : cross w x = w.1 * x.2 - w.2 * x.1 := rfl
        rw [this, hxy, hwy]
        ring_nf
        exact le_refl 0
      · have : cross x u = x.1 * u.2 - x.2 * u.1 := rfl
        rw [this, hxy, huy]
        ring_nf
        exact le_refl 0
    · -- (2, 3) impossible
      exfalso
      have huy : 0 < u.2 := (angClass_two_iff u).mp hu2
      have : cross u w = u.1 * w.2 - u.2 * w.1 := rfl
      rw [this, hwy] at hc
      nlinarith

/-- The reflex-cone lemma for the wrap-around pair: if the angular step from
`u` (the angularly largest vector) forward to `w` (the angularly smallest) is
at least `π`, every vector angularly between `w` and `u` lies in the closed
cone from `w` to `u`. -/
theorem reflex_cone_wrap (u w x : Pt) (hu : u ≠ (0, 0)) (hw : w ≠ (0, 0))
    (hlt : AngLt w u) (hc : cross u w ≤ 0) (hx1 : AngLe w x) (hx2 : AngLe x u) :
    0 ≤ cross w x ∧ 0 ≤ cross x u := by
  have hu3 := angClass_le_three u
  have hx3 := angClass_le_three x
  have hxa := (angLe_iff w x).mp hx1
  have hxb := (angLe_iff x u).mp hx2
  by_cases hsame : angClass w = angClass u
  · -- all three classes equal
    have hcx : angClass x = angClass w := by omega
    by_cases h13 : angClass w = 1 ∨ angClass w = 3
    · exfalso
      apply hlt.2
      rw [angLe_iff]
      exact Or.inr ⟨hsame.symm, Or.inl (by omega)⟩
    · constructor
      · rcases hxa with hl | ⟨_, hd⟩
        · omega
        · rcases hd with h13' | hcx'
          · exact absurd h13' h13
          · exact hcx'
      · rcases hxb with hl | ⟨_, hd⟩
        · omega
        · rcases hd with h13' | hcx'
          · exfalso; omega
          · exact hcx'
  · have hcl : angClass w < angClass u := by
      rcases (angLe_iff w u).mp hlt.1 with hl | ⟨heq, _⟩
      · exact hl
      · exact absurd heq hsame
    rcases (by omega : angClass u = 1 ∨ angClass u = 2 ∨ angClass u = 3)
      with hu1 | hu2 | huc
    · -- (cw, cu) = (0, 1)
      have hw0 : angClass w = 0 := by omega
      have hw2 : w.2 < 0 := (angClass_zero_iff w).mp hw0
      obtain ⟨huy, hux⟩ := class_one_pos hu hu1
      rcases (by omega : angClass x = 0 ∨ angClass x = 1) with hx0 | hx1c
      · have hx2' : x.2 < 0 := (angClass_zero_iff x).mp hx0
        constructor
        · rcases hxa with hl | ⟨_, hd⟩
          · omega
          · rcases hd with h13' | hcx'
            · exfalso; omega
            · exact hcx'
        · have : cross x u = x.1 * u.2 - x.2 * u.1 := rfl
          rw [this, huy]
          nlinarith
      · obtain ⟨hxy, hxx⟩ := (angClass_one_iff x).mp hx1c
        constructor
        · have : cross w x = w.1 * x.2 - w.2 * x.1 := rfl
          rw [this, hxy]
          nlinarith
        · have : cross x u = x.1 * u.2 - x.2 * u.1 := rfl
          rw [this, hxy, huy]
          ring_nf
          exact le_refl 0
    · -- cu = 2
      have huy : 0 < u.2 := (angClass_two_iff u).mp hu2
      rcases (by omega : angClass w = 0 ∨ angClass w = 1) with hw0 | hw1
      · -- (0, 2)
        have hwy : w.2 < 0 := (angClass_zero_iff w).mp hw0
        rcases (by omega : angClass x = 0 ∨ angClass x = 1 ∨ angClass x = 2)
          with hx0 | hx1c | hx2c
        · have hxy : x.2 < 0 := (angClass_zero_iff x).mp hx0
          have hwx : 0 ≤ cross w x := by
            rcases hxa with hl | ⟨_, hd⟩
            · omega
            · rcases hd with h13' | hcx'
              · exfalso; omega
              · exact hcx'
          refine ⟨hwx, ?_⟩
          have hid := cross_identity x w u
          have hs1 : cross x w = - cross w x := cross_skew w x
          have hs2 : cross w u = - cross u w := cross_skew u w
          nlinarith
        · obtain ⟨hxy, hxx⟩ := (angClass_one_iff x).mp hx1c
          constructor
          · have : cross w x = w.1 * x.2 - w.2 * x.1 := rfl
            rw [this, hxy]
            nlinarith
          · have : cross x u = x.1 * u.2 - x.2 * u.1 := rfl
            rw [this, hxy]
            nlinarith
        · have hxy : 0 < x.2 := (angClass_two_iff x).mp hx2c
          have hxu : 0 ≤ cross x u := by
            rcases hxb with hl | ⟨_, hd⟩
            · omega
            · rcases hd with h13' | hcx'
              · exfalso; omega
              · exact hcx'
          refine ⟨?_, hxu⟩
          have hid := cross_identity w u x
          have hs1 : cross w u = - cross u w := cross_skew u w
          have hs2 : cross u x = - cross x u := cross_skew x u
          nlinarith
      · -- (1, 2)
        obtain ⟨hwy, hwx⟩ := class_one_pos hw hw1
        rcases (by omega : angClass x = 1 ∨ angClass x = 2) with hx1c | hx2c
        · obtain ⟨hxy, hxx⟩ := (angClass_one_iff x).mp hx1c
          constructor
          · have : cross w x = w.1 * x.2 - w.2 * x.1 := rfl
            rw [this, hxy, hwy]
            ring_nf
            exact le_refl 0
          · have : cross x u = x.1 * u.2 - x.2 * u.1 := rfl
            rw [this, hxy]
            nlinarith
        · have hxy : 0 < x.2 := (angClass_two_iff x).mp hx2c
          have hxu : 0 ≤ cross x u := by
            rcases hxb with hl | ⟨_, hd⟩
            · omega
            · rcases hd with h13' | hcx'
              · exfalso; omega
              · exact hcx'
          refine ⟨?_, hxu⟩
          have : cross w x = w.1 * x.2 - w.2 * x.1 := rfl
          rw [this, hwy]
          nlinarith
    · -- cu = 3
      obtain ⟨huy, hux⟩ := (angClass_three_iff u).mp huc
      rcases (by omega : angClass w = 0 ∨ angClass w = 1 ∨ angClass w = 2)
        with hw0 | hw1 | hw2
      · -- (0, 3) impossible: cross u w would be positive
        exfalso
        have hwy : w.2 < 0 := (angClass_zero_iff w).mp hw0
        have : cross u w = u.1 * w.2 - u.2 * w.1 := rfl
        rw [this, huy] at hc
        nlinarith
      · -- (1, 3)
        obtain ⟨hwy, hwx⟩ := class_one_pos hw hw1
        rcases (by omega : angClass x = 1 ∨ angClass x = 2 ∨ angClass x = 3)
          with hx1c | hx2c | hx3c
        · obtain ⟨hxy, hxx⟩ := (angClass_one_iff x).mp hx1c
          constructor
          · have : cross w x = w.1 * x.2 - w.2 * x.1 := rfl
            rw [this, hxy, hwy]
            ring_nf
            exact le_refl 0
          · have : cross x u = x.1 * u.2 - x.2 * u.1 := rfl
            rw [this, hxy, huy]
            ring_nf
            exact le_refl 0
        · have hxy : 0 < x.2 := (angClass_two_iff x).mp hx2c
          constructor
          · have : cross w x = w.1 * x.2 - w.2 * x.1 := rfl
            rw [this, hwy]
            nlinarith
          · have : cross x u = x.1 * u.2 - x.2 * u.1 := rfl
            rw [this, huy]
            nlinarith
        · obtain ⟨hxy, hxx⟩ := (angClass_three_iff x).mp hx3c
          constructor
          · have : cross w x = w.1 * x.2 - w.2 * x.1 := rfl
            rw [this, hxy, hwy]
            ring_nf
            exact le_refl 0
          · have : cross x u = x.1 * u.2 - x.2 * u.1 := rfl
            rw [this, hxy, huy]
            ring_nf
            exact le_refl 0
      · -- (2, 3)
        have hwy : 0 < w.2 := (angClass_two_iff w).mp hw2
        rcases (by omega : angClass x = 2 ∨ angClass x = 3) with hx2c | hx3c
        · have hxy : 0 < x.2 := (angClass_two_iff x).mp hx2c
          have hwxc : 0 ≤ cross w x := by
            rcases hxa with hl | ⟨_, hd⟩
            · omega
            · rcases hd with h13' | hcx'
              · exfalso; omega
              · exact hcx'
          refine ⟨hwxc, ?_⟩
          have : cross x u = x.1 * u.2 - x.2 * u.1 := rfl
          rw [this, huy]
          nlinarith
        · obtain ⟨hxy, hxx⟩ := (angClass_three_iff x).mp hx3c
          constructor
          · have : cross w x = w.1 * x.2 - w.2 * x.1 := rfl
            rw [this, hxy]
            nlinarith
          · have : cross x u = x.1 * u.2 - x.2 * u.1 := rfl
            rw [this, hxy, huy]
            ring_nf
            exact le_refl 0

theorem exists_scalar {a b : Pt} (ha : a ≠ (0, 0)) (h : cross a b = 0) :
    ∃ l : ℚ, b = (l * a.1, l * a.2) := by
  have hc : a.1 * b.2 - a.2 * b.1 = 0 := h
  by_cases h1 : a.1 = 0
  · have h2 : a.2 ≠ 0 := by
      intro h2
      apply ha
      rw [show a = (a.1, a.2) from rfl, h1, h2]
    refine ⟨b.2 / a.2, ?_⟩
    rw [show b = (b.1, b.2) from rfl]
    have hb1 : b.1 = 0 := by
      rw [h1] at hc
      have hz : a.2 * b.1 = 0 := by linarith
      rcases mul_eq_zero.mp hz with h' | h'
      · exact absurd h' h2
      · exact h'
    rw [Prod.mk.injEq]
    constructor
    · rw [hb1, h1, mul_zero]
    · field_simp
  · refine ⟨b.1 / a.1, ?_⟩
    rw [show b = (b.1, b.2) from rfl]
    rw [Prod.mk.injEq]
    constructor
    · field_simp
    · field_simp
      linear_combination hc

theorem angClass_smul_pos (a : Pt) (l : ℚ) (hl : 0 < l) :
    angClass (l * a.1, l * a.2) = angClass a := by
  rcases lt_trichotomy a.2 0 with h | h | h
  · rw [(angClass_zero_iff a).mpr h,
      (angClass_zero_iff _).mpr (show (l * a.1, l * a.2).2 < 0 from
        mul_neg_of_pos_of_neg hl h)]
  · rcases le_or_lt 0 a.1 with h1 | h1
    · rw [(angClass_one_iff a).mpr ⟨h, h1⟩,
        (angClass_one_iff _).mpr ⟨show l * a.2 = 0 by rw [h, mul_zero],
          show (0 : ℚ) ≤ l * a.1 from mul_nonneg (le_of_lt hl) h1⟩]
    · rw [(angClass_three_iff a).mpr ⟨h, h1⟩,
        (angClass_three_iff _).mpr ⟨show l * a.2 = 0 by rw [h, mul_zero],
          show l * a.1 < 0 from mul_neg_of_pos_of_neg hl h1⟩]
  · rw [(angClass_two_iff a).mpr h,
      (angClass_two_iff _).mpr (show (0 : ℚ) < l * a.2 from mul_pos hl h)]

theorem angEq_smul_pos (a : Pt) (l : ℚ) (hl : 0 < l) :
    AngEq a (l * a.1, l * a.2) := by
  have hcls := angClass_smul_pos a l hl
  have hcr : cross a (l * a.1, l * a.2) = 0 := by
    show a.1 * (l * a.2) - a.2 * (l * a.1) = 0
    ring
  constructor
  · rw [angLe_iff]
    exact Or.inr ⟨hcls.symm, Or.inr (le_of_eq hcr.symm)⟩
  · rw [angLe_iff]
    refine Or.inr ⟨hcls, Or.inr ?_⟩
    rw [cross_skew, hcr, neg_zero]

theorem angEq_symm {a b : Pt} (h : AngEq a b) : AngEq b a := ⟨h.2, h.1⟩

theorem three_parallel_contra (a b m : Pt) (ha : a ≠ (0, 0)) (hb : b ≠ (0, 0))
    (hm : m ≠ (0, 0)) (hab : cross a b = 0) (ham : cross a m = 0)
    (h1 : ¬ AngEq a b) (h2 : ¬ AngEq a m) (h3 : ¬ AngEq b m) : False := by
  obtain ⟨l, hl⟩ := exists_scalar ha hab
  obtain ⟨r, hr⟩ := exists_scalar ha ham
  have hlne : l ≠ 0 := by
    intro h
    apply hb
    rw [hl, h]
    simp
  have hrne : r ≠ 0 := by
    intro h
    apply hm
    rw [hr, h]
    simp
  rcases lt_or_gt_of_ne hlne with hlneg | hlpos
  · rcases lt_or_gt_of_ne hrne with hrneg | hrpos
    · -- both negative: m = (r/l) b with r/l > 0
      apply h3
      have hrl : 0 < r / l := div_pos_of_neg_of_neg hrneg hlneg
      have hm' : m = ((r / l) * b.1, (r / l) * b.2) := by
        rw [hl, hr]
        simp only [Prod.mk.injEq]
        constructor <;> (field_simp; ring)
      rw [hm']
      exact angEq_smul_pos b (r / l) hrl
    · exact h2 (hr ▸ angEq_smul_pos a r hrpos)
  · exact h1 (hl ▸ angEq_smul_pos a l hlpos)

theorem cone_rep (u v x : Pt) (h : cross u v ≠ 0) :
    x.1 = (cross x v / cross u v) * u.1 + (cross u x / cross u v) * v.1 ∧
    x.2 = (cross x v / cross u v) * u.2 + (cross u x / cross u v) * v.2 := by
  have hc : cross u v = u.1 * v.2 - u.2 * v.1 := rfl
  constructor
  · field_simp
    show x.1 * cross u v = cross x v * u.1 + cross u x * v.1
    show x.1 * (u.1 * v.2 - u.2 * v.1) =
      (x.1 * v.2 - x.2 * v.1) * u.1 + (u.1 * x.2 - u.2 * x.1) * v.1
    ring
  · field_simp
    show x.2 * cross u v = cross x v * u.2 + cross u x * v.2
    show x.2 * (u.1 * v.2 - u.2 * v.1) =
      (x.1 * v.2 - x.2 * v.1) * u.2 + (u.1 * x.2 - u.2 * x.1) * v.2
    ring

/-- A nonzero vector in the closed cone between consecutive sorted directions
(`u` before `v` in linear angular order, less than `π` apart) is angularly
between them. -/
theorem wedge_locate (u v x : Pt) (hu : u ≠ (0, 0)) (hv : v ≠ (0, 0))
    (hx : x ≠ (0, 0)) (hlt : AngLt u v) (hcuv : 0 < cross u v)
    (h1 : 0 ≤ cross u x) (h2 : 0 ≤ cross x v) :
    AngLe u x ∧ AngLe x v := by
  have hu3 := angClass_le_three u
  have hv3 := angClass_le_three v
  obtain ⟨hr1, hr2⟩ := cone_rep u v x (ne_of_gt hcuv)
  set al := cross x v / cross u v with hal
  set be := cross u x / cross u v with hbe
  have hal0 : 0 ≤ al := div_nonneg h2 (le_of_lt hcuv)
  have hbe0 : 0 ≤ be := div_nonneg h1 (le_of_lt hcuv)
  have hnb : ¬ (al = 0 ∧ be = 0) := by
    rintro ⟨ha0, hb0⟩
    apply hx
    rw [show x = (x.1, x.2) from rfl, hr1, hr2, ha0, hb0]
    norm_num
  -- feasible class pairs
  have hcls : (angClass u = angClass v ∧ (angClass u = 0 ∨ angClass u = 2)) ∨
      angClass u < angClass v := by
    rcases (angLe_iff u v).mp hlt.1 with hl | ⟨heq, _⟩
    · exact Or.inr hl
    · by_cases h13 : angClass u = 1 ∨ angClass u = 3
      · exfalso
        apply hlt.2
        rw [angLe_iff]
        exact Or.inr ⟨heq.symm, Or.inl (by omega)⟩
      · exact Or.inl ⟨heq, by omega⟩
  rcases hcls with ⟨heq, h02⟩ | hlt'
  · -- same class 0 or 2
    rcases h02 with h0 | h2'
    · have hu2 : u.2 < 0 := (angClass_zero_iff u).mp h0
      have hv2 : v.2 < 0 := (angClass_zero_iff v).mp (heq ▸ h0)
      have hx2 : x.2 < 0 := by
        rw [hr2]
        rcases eq_or_lt_of_le hal0 with ha | ha
        · have hbpos : 0 < be := by
            rcases eq_or_lt_of_le hbe0 with hb | hb
            · exact absurd ⟨ha.symm, hb.symm⟩ hnb
            · exact hb
          nlinarith
        · nlinarith
      have hx0 : angClass x = 0 := (angClass_zero_iff x).mpr hx2
      constructor
      · rw [angLe_iff]
        exact Or.inr ⟨h0.trans hx0.symm, Or.inr h1⟩
      · rw [angLe_iff]
        exact Or.inr ⟨hx0.trans (heq ▸ h0).symm, Or.inr h2⟩
    · have hu2 : 0 < u.2 := (angClass_two_iff u).mp h2'
      have hv2 : 0 < v.2 := (angClass_two_iff v).mp (heq ▸ h2')
      have hx2 : 0 < x.2 := by
        rw [hr2]
        rcases eq_or_lt_of_le hal0 with ha | ha
        · have hbpos : 0 < be := by
            rcases eq_or_lt_of_le hbe0 with hb | hb
            · exact absurd ⟨ha.symm, hb.symm⟩ hnb
            · exact hb
          nlinarith
        · nlinarith
      have hx0 : angClass x = 2 := (angClass_two_iff x).mpr hx2
      constructor
      · rw [angLe_iff]
        exact Or.inr ⟨h2'.trans hx0.symm, Or.inr h1⟩
      · rw [angLe_iff]
        exact Or.inr ⟨hx0.trans (heq ▸ h2').symm, Or.inr h2⟩
  · -- strictly increasing class
    rcases (by omega : angClass v = 1 ∨ angClass v = 2 ∨ angClass v = 3)
      with hv1 | hv2 | hvc
    · -- (0, 1)
      have hu0 : angClass u = 0 := by omega
      have hu2 : u.2 < 0 := (angClass_zero_iff u).mp hu0
      obtain ⟨hvy, hvx⟩ := class_one_pos hv hv1
      rcases eq_or_lt_of_le hal0 with ha | ha
      · have hbpos : 0 < be := by
          rcases eq_or_lt_of_le hbe0 with hb | hb
          · exact absurd ⟨ha.symm, hb.symm⟩ hnb
          · exact hb
        have hx1c : angClass x = 1 := by
          apply (angClass_one_iff x).mpr
          constructor
          · rw [hr2, ← ha, hvy]; ring
          · rw [hr1, ← ha]
            nlinarith
        constructor
        · rw [angLe_iff]; exact Or.inl (by omega)
        · rw [angLe_iff]
          exact Or.inr ⟨by omega, Or.inl (by omega)⟩
      · have hx2 : x.2 < 0 := by
          rw [hr2, hvy]
          nlinarith
        have hx0 : angClass x = 0 := (angClass_zero_iff x).mpr hx2
        constructor
        · rw [angLe_iff]
          exact Or.inr ⟨by omega, Or.inr h1⟩
        · rw [angLe_iff]; exact Or.inl (by omega)
    · -- cv = 2
      have hvy : 0 < v.2 := (angClass_two_iff v).mp hv2
      rcases (by omega : angClass u = 0 ∨ angClass u = 1) with hu0 | hu1
      · -- (0, 2)
        have hu2 : u.2 < 0 := (angClass_zero_iff u).mp hu0
        rcases lt_trichotomy x.2 0 with hx2 | hx2 | hx2
        · have hx0 : angClass x = 0 := (angClass_zero_iff x).mpr hx2
          constructor
          · rw [angLe_iff]; exact Or.inr ⟨by omega, Or.inr h1⟩
          · rw [angLe_iff]; exact Or.inl (by omega)
        · have hx1c : angClass x = 1 := by
            apply (angClass_one_iff x).mpr
            refine ⟨hx2, ?_⟩
            by_contra hxx
            push_neg at hxx
            have : cross u x = u.1 * x.2 - u.2 * x.1 := rfl
            rw [this, hx2] at h1
            nlinarith
          constructor
          · rw [angLe_iff]; exact Or.inl (by omega)
          · rw [angLe_iff]; exact Or.inl (by omega)
        · have hx0 : angClass x = 2 := (angClass_two_iff x).mpr hx2
          constructor
          · rw [angLe_iff]; exact Or.inl (by omega)
          · rw [angLe_iff]; exact Or.inr ⟨by omega, Or.inr h2⟩
      · -- (1, 2)
        obtain ⟨huy, hux⟩ := class_one_pos hu hu1
        rcases eq_or_lt_of_le hbe0 with hb | hb
        · have hapos : 0 < al := by
            rcases eq_or_lt_of_le hal0 with ha | ha
            · exact absurd ⟨ha.symm, hb.symm⟩ hnb
            · exact ha
          have hx1c : angClass x = 1 := by
            apply (angClass_one_iff x).mpr
            constructor
            · rw [hr2, ← hb, huy]; ring
            · rw [hr1, ← hb]
              nlinarith
          constructor
          · rw [angLe_iff]
            exact Or.inr ⟨by omega, Or.inl (by omega)⟩
          · rw [angLe_iff]; exact Or.inl (by omega)
        · have hx2 : 0 < x.2 := by
            rw [hr2, huy]
            nlinarith
          have hx0 : angClass x = 2 := (angClass_two_iff x).mpr hx2
          constructor
          · rw [angLe_iff]; exact Or.inl (by omega)
          · rw [angLe_iff]; exact Or.inr ⟨by omega, Or.inr h2⟩
    · -- cv = 3
      obtain ⟨hvy, hvx⟩ := (angClass_three_iff v).mp hvc
      rcases (by omega : angClass u = 0 ∨ angClass u = 1 ∨ angClass u = 2)
        with hu0 | hu1 | hu2
      · -- (0, 3) impossible: cross u v < 0
        exfalso
        have hu2 : u.2 < 0 := (angClass_zero_iff u).mp hu0
        have : cross u v = u.1 * v.2 - u.2 * v.1 := rfl
        rw [this, hvy] at hcuv
        nlinarith
      · -- (1, 3) impossible: cross u v = 0
        exfalso
        obtain ⟨huy, hux⟩ := class_one_pos hu hu1
        have : cross u v = u.1 * v.2 - u.2 * v.1 := rfl
        rw [this, hvy, huy] at hcuv
        nlinarith
      · -- (2, 3)
        have huy : 0 < u.2 := (angClass_two_iff u).mp hu2
        rcases eq_or_lt_of_le hal0 with ha | ha
        · have hbpos : 0 < be := by
            rcases eq_or_lt_of_le hbe0 with hb | hb
            · exact absurd ⟨ha.symm, hb.symm⟩ hnb
            · exact hb
          have hx3c : angClass x = 3 := by
            apply (angClass_three_iff x).mpr
            constructor
            · rw [hr2, ← ha, hvy]; ring
            · rw [hr1, ← ha]
              nlinarith
          constructor
          · rw [angLe_iff]; exact Or.inl (by omega)
          · rw [angLe_iff]
            exact Or.inr ⟨by omega, Or.inl (by omega)⟩
        · have hx2 : 0 < x.2 := by
            rw [hr2, hvy]
            nlinarith
          have hx0 : angClass x = 2 := (angClass_two_iff x).mpr hx2
          constructor
          · rw [angLe_iff]; exact Or.inr ⟨by omega, Or.inr h1⟩
          · rw [angLe_iff]; exact Or.inl (by omega)

/-- The wrap-around analogue of `wedge_locate`: a nonzero vector in the
closed cone from the angularly largest direction `u` forward (through the
branch cut) to the angularly smallest direction `v` is angularly at most `v`
or at least `u`. -/
theorem wedge_locate_wrap (u v x : Pt) (hu : u ≠ (0, 0)) (hv : v ≠ (0, 0))
    (hx : x ≠ (0, 0)) (hlt : AngLt v u) (hcuv : 0 < cross u v)
    (h1 : 0 ≤ cross u x) (h2 : 0 ≤ cross x v) :
    AngLe x v ∨ AngLe u x := by
  have hu3 := angClass_le_three u
  have hv3 := angClass_le_three v
  obtain ⟨hr1, hr2⟩ := cone_rep u v x (ne_of_gt hcuv)
  set al := cross x v / cross u v with hal
  set be := cross u x / cross u v with hbe
  have hal0 : 0 ≤ al := div_nonneg h2 (le_of_lt hcuv)
  have hbe0 : 0 ≤ be := div_nonneg h1 (le_of_lt hcuv)
  have hnb : ¬ (al = 0 ∧ be = 0) := by
    rintro ⟨ha0, hb0⟩
    apply hx
    rw [show x = (x.1, x.2) from rfl, hr1, hr2, ha0, hb0]
    norm_num
  have hcl : angClass v < angClass u := by
    rcases (angLe_iff v u).mp hlt.1 with hl | ⟨heq, hd⟩
    · exact hl
    · exfalso
      by_cases h13 : angClass v = 1 ∨ angClass v = 3
      · apply hlt.2
        rw [angLe_iff]
        exact Or.inr ⟨heq.symm, Or.inl (by omega)⟩
      · rcases hd with h13' | hcx
        · exact h13 h13'
        · apply hlt.2
          rw [angLe_iff]
          exact Or.inr ⟨heq.symm, Or.inr (le_of_lt hcuv)⟩
  -- feasible (cv, cu): (0, 2) and (0, 3)
  rcases (by omega : angClass u = 1 ∨ angClass u = 2 ∨ angClass u = 3)
    with hu1 | hu2 | huc
  · -- (0, 1) impossible
    exfalso
    have hv0 : angClass v = 0 := by omega
    have hv2 : v.2 < 0 := (angClass_zero_iff v).mp hv0
    obtain ⟨huy, hux⟩ := class_one_pos hu hu1
    have : cross u v = u.1 * v.2 - u.2 * v.1 := rfl
    rw [this, huy] at hcuv
    nlinarith
  · -- cu = 2
    have huy : 0 < u.2 := (angClass_two_iff u).mp hu2
    rcases (by omega : angClass v = 0 ∨ angClass v = 1) with hv0 | hv1
    · -- (0, 2)
      have hvy : v.2 < 0 := (angClass_zero_iff v).mp hv0
      rcases lt_trichotomy x.2 0 with hx2 | hx2 | hx2
      · have hx0 : angClass x = 0 := (angClass_zero_iff x).mpr hx2
        left
        rw [angLe_iff]
        exact Or.inr ⟨by omega, Or.inr h2⟩
      · -- x.2 = 0: class 1 impossible, class 3 goes right
        have hx3c : angClass x = 3 := by
          apply (angClass_three_iff x).mpr
          refine ⟨hx2, ?_⟩
          by_contra hxx
          push_neg at hxx
          have : cross u x = u.1 * x.2 - u.2 * x.1 := rfl
          rw [this, hx2] at h1
          rcases eq_or_lt_of_le hxx with hx1 | hx1
          · apply hx
            rw [show x = (x.1, x.2) from rfl, ← hx1, hx2]
          · nlinarith
        right
        rw [angLe_iff]
        exact Or.inl (by omega)
      · have hx0 : angClass x = 2 := (angClass_two_iff x).mpr hx2
        right
        rw [angLe_iff]
        exact Or.inr ⟨by omega, Or.inr h1⟩
    · -- (1, 2) impossible
      exfalso
      obtain ⟨hvy, hvx⟩ := class_one_pos hv hv1
      have : cross u v = u.1 * v.2 - u.2 * v.1 := rfl
      rw [this, hvy] at hcuv
      nlinarith
  · -- cu = 3
    obtain ⟨huy, hux⟩ := (angClass_three_iff u).mp huc
    rcases (by omega : angClass v = 0 ∨ angClass v = 1 ∨ angClass v = 2)
      with hv0 | hv1 | hv2
    · -- (0, 3)
      have hvy : v.2 < 0 := (angClass_zero_iff v).mp hv0
      rcases eq_or_lt_of_le hbe0 with hb | hb
      · have hapos : 0 < al := by
          rcases eq_or_lt_of_le hal0 with ha | ha
          · exact absurd ⟨ha.symm, hb.symm⟩ hnb
          · exact ha
        -- x = al • u: class 3
        have hx3c : angClass x = 3 := by
          apply (angClass_three_iff x).mpr
          constructor
          · rw [hr2, ← hb, huy]; ring
          · rw [hr1, ← hb]
            nlinarith
        right
        rw [angLe_iff]
        exact Or.inr ⟨by omega, Or.inl (by omega)⟩
      · have hx2 : x.2 < 0 := by
          rw [hr2, huy]
          nlinarith
        have hx0 : angClass x = 0 := (angClass_zero_iff x).mpr hx2
        left
        rw [angLe_iff]
        exact Or.inr ⟨by omega, Or.inr h2⟩
    · -- (1, 3) impossible: cross u v = 0
      exfalso
      obtain ⟨hvy, hvx⟩ := class_one_pos hv hv1
      have : cross u v = u.1 * v.2 - u.2 * v.1 := rfl
      rw [this, hvy, huy] at hcuv
      nlinarith
    · -- (2, 3) impossible: cross u v < 0
      exfalso
      have hvy : 0 < v.2 := (angClass_two_iff v).mp hv2
      have : cross u v = u.1 * v.2 - u.2 * v.1 := rfl
      rw [this, huy] at hcuv
      nlinarith

theorem sub_eq_zero_iff_eq (p c : Pt) : sub p c = ((0 : ℚ), (0 : ℚ)) ↔ p = c := by
  unfold sub
  constructor
  · intro h
    have h1 : p.1 - c.1 = 0 := congrArg Prod.fst h
    have h2 : p.2 - c.2 = 0 := congrArg Prod.snd h
    have : p = (p.1, p.2) := rfl
    rw [this, show c = (c.1, c.2) from rfl]
    rw [Prod.mk.injEq]
    constructor <;> linarith
  · intro h
    rw [h]
    simp

theorem sub_inj {p q c : Pt} (h : sub p c = sub q c) : p = q := by
  have h1 : p.1 - c.1 = q.1 - c.1 := congrArg Prod.fst h
  have h2 : p.2 - c.2 = q.2 - c.2 := congrArg Prod.snd h
  rw [show p = (p.1, p.2) from rfl, show q = (q.1, q.2) from rfl, Prod.mk.injEq]
  constructor <;> linarith

theorem sum_getD_comp (vs : List Pt) (f : Pt → ℚ) :
    ∑ i in Finset.range vs.length, f (vs.getD i (0, 0)) = (vs.map f).sum := by
  induction vs with
  | nil => simp
  | cons a t ih =>
    rw [List.length_cons, Finset.sum_range_succ']
    simp only [List.getD_cons_succ, List.getD_cons_zero, List.map_cons, List.sum_cons]
    rw [ih, add_comm]

theorem sum_rel_zero (vs : List Pt) (hk : vs.length ≠ 0) :
    (∑ i in Finset.range vs.length, (sub (vs.getD i (0, 0)) (meanPt vs)).1 = 0) ∧
    (∑ i in Finset.range vs.length, (sub (vs.getD i (0, 0)) (meanPt vs)).2 = 0) := by
  have hkq : (vs.length : ℚ) ≠ 0 := Nat.cast_ne_zero.mpr hk
  constructor
  · have : ∀ i, (sub (vs.getD i (0, 0)) (meanPt vs)).1 =
        (vs.getD i (0, 0)).1 - (meanPt vs).1 := fun i => rfl
    rw [Finset.sum_congr rfl (fun i _ => this i), Finset.sum_sub_distrib,
      Finset.sum_const, Finset.card_range, sum_getD_comp vs Prod.fst]
    show (vs.map Prod.fst).sum - vs.length • ((vs.map Prod.fst).sum / vs.length) = 0
    rw [nsmul_eq_mul, mul_div_cancel₀ _ hkq, sub_self]
  · have : ∀ i, (sub (vs.getD i (0, 0)) (meanPt vs)).2 =
        (vs.getD i (0, 0)).2 - (meanPt vs).2 := fun i => rfl
    rw [Finset.sum_congr rfl (fun i _ => this i), Finset.sum_sub_distrib,
      Finset.sum_const, Finset.card_range, sum_getD_comp vs Prod.snd]
    show (vs.map Prod.snd).sum - vs.length • ((vs.map Prod.snd).sum / vs.length) = 0
    rw [nsmul_eq_mul, mul_div_cancel₀ _ hkq, sub_self]

/-- All cyclically consecutive angular gaps of an angle-sorted list of
nonzero relative vectors summing to zero are less than `π`: the consecutive
cross products are strictly positive. -/
theorem gaps_pos (vs : List Pt)
    (hk : 3 ≤ vs.length)
    (hnz : ∀ i, i < vs.length → sub (vs.getD i (0, 0)) (meanPt vs) ≠ (0, 0))
    (hsorted : ∀ i j, i < j → j < vs.length →
      AngLe (sub (vs.getD i (0, 0)) (meanPt vs)) (sub (vs.getD j (0, 0)) (meanPt vs)))
    (hdist : ∀ i j, i < j → j < vs.length →
      ¬ AngEq (sub (vs.getD i (0, 0)) (meanPt vs)) (sub (vs.getD j (0, 0)) (meanPt vs))) :
    ∀ i, i < vs.length →
      0 < cross (sub (vs.getD i (0, 0)) (meanPt vs))
        (sub (vs.getD ((i + 1) % vs.length) (0, 0)) (meanPt vs)) := by
  set k := vs.length with hkdef
  set c := meanPt vs with hcdef
  set D : ℕ → Pt := fun i => sub (vs.getD i (0, 0)) c with hDdef
  have hsum := sum_rel_zero vs (by omega)
  -- given the two pointwise cone bounds for every index, derive that each
  -- bound is an equality, and from three indices a contradiction
  have main : ∀ u w : Pt, u ≠ (0, 0) → w ≠ (0, 0) →
      (∀ j, j < k → 0 ≤ cross w (D j) ∧ 0 ≤ cross (D j) u) →
      (∀ j, j < k → cross w (D j) = 0 ∧ cross (D j) u = 0) := by
    intro u w hu hw hall
    have hsw : ∑ j in Finset.range k, cross w (D j) = 0 := by
      have hterm : ∀ j, cross w (D j) = w.1 * (D j).2 - w.2 * (D j).1 :=
        fun j => rfl
      rw [Finset.sum_congr rfl (fun j _ => hterm j), Finset.sum_sub_distrib,
        ← Finset.mul_sum, ← Finset.mul_sum]
      rw [hsum.1, hsum.2]
      ring
    have hsu : ∑ j in Finset.range k, cross (D j) u = 0 := by
      have hterm : ∀ j, cross (D j) u = (D j).1 * u.2 - (D j).2 * u.1 :=
        fun j => rfl
      rw [Finset.sum_congr rfl (fun j _ => hterm j), Finset.sum_sub_distrib]
      rw [← Finset.sum_mul, ← Finset.sum_mul]
      rw [hsum.1, hsum.2]
      ring
    intro j hj
    constructor
    · have := (Finset.sum_eq_zero_iff_of_nonneg
        (fun j hj => (hall j (Finset.mem_range.mp hj)).1)).mp hsw
      exact this j (Finset.mem_range.mpr hj)
    · have := (Finset.sum_eq_zero_iff_of_nonneg
        (fun j hj => (hall j (Finset.mem_range.mp hj)).2)).mp hsu
      exact this j (Finset.mem_range.mpr hj)
  have hdist' : ∀ i j, i < k → j < k → i ≠ j → ¬ AngEq (D i) (D j) := by
    intro i j hi hj hne
    rcases lt_or_gt_of_ne hne with h | h
    · exact hdist i j h hj
    · intro he
      exact hdist j i h hi (angEq_symm he)
  intro i hi
  by_cases hiw : i + 1 < k
  · -- non-wrap pair
    rw [Nat.mod_eq_of_lt hiw]
    by_contra hcon
    push_neg at hcon
    have hstrict : AngLt (D i) (D (i + 1)) :=
      angLt_of_le_not_eq (hsorted i (i + 1) (Nat.lt_succ_self i) hiw)
        (hdist i (i + 1) (Nat.lt_succ_self i) hiw)
    have hall : ∀ j, j < k →
        0 ≤ cross (D (i + 1)) (D j) ∧ 0 ≤ cross (D j) (D i) := by
      intro j hj
      rcases le_or_lt j i with hji | hji
      · have hle : AngLe (D j) (D i) := by
          rcases eq_or_lt_of_le hji with h | h
          · rw [h]; exact angLe_refl _
          · exact hsorted j i h hi
        exact reflex_cone_left (D i) (D (i + 1)) (D j) (hnz i hi) (hnz (i + 1) hiw)
          hstrict hcon hle
      · have hle : AngLe (D (i + 1)) (D j) := by
          rcases eq_or_lt_of_le hji with h | h
          · rw [← h]; exact angLe_refl _
          · exact hsorted (i + 1) j h hj
        exact reflex_cone_right (D i) (D (i + 1)) (D j) (hnz i hi) (hnz (i + 1) hiw)
          hstrict hcon hle
    have hzero := main (D i) (D (i + 1)) (hnz i hi) (hnz (i + 1) hiw) hall
    -- pick a third index
    set m : ℕ := if i = 0 then 2 else 0 with hmdef
    have hm : m < k ∧ m ≠ i ∧ m ≠ i + 1 := by
      by_cases h0 : i = 0
      · rw [hmdef, if_pos h0]
        omega
      · rw [hmdef, if_neg h0]
        omega
    apply three_parallel_contra (D i) (D (i + 1)) (D m) (hnz i hi)
      (hnz (i + 1) hiw) (hnz m hm.1)
    · have := (hzero (i + 1) hiw).2
      rw [cross_skew] at this
      linarith
    · have := (hzero m hm.1).2
      rw [cross_skew] at this
      linarith
    · exact hdist i (i + 1) (Nat.lt_succ_self i) hiw
    · exact hdist' i m hi hm.1 (fun h => hm.2.1 h.symm)
    · exact hdist' (i + 1) m hiw hm.1 (fun h => hm.2.2 h.symm)
  · -- wrap pair: i = k - 1
    have hik : i = k - 1 := by omega
    have h0k : 0 < k := by omega
    have hmod : (i + 1) % k = 0 := by
      rw [hik]
      rw [Nat.sub_add_cancel (by omega), Nat.mod_self]
    rw [hmod]
    by_contra hcon
    push_neg at hcon
    have h0lt : 0 < i := by omega
    have hstrict : AngLt (D 0) (D i) :=
      angLt_of_le_not_eq (hsorted 0 i h0lt hi) (hdist 0 i h0lt hi)
    have hall : ∀ j, j < k →
        0 ≤ cross (D 0) (D j) ∧ 0 ≤ cross (D j) (D i) := by
      intro j hj
      have hle1 : AngLe (D 0) (D j) := by
        rcases Nat.eq_zero_or_pos j with h | h
        · rw [h]; exact angLe_refl _
        · exact hsorted 0 j h hj
      have hle2 : AngLe (D j) (D i) := by
        rcases eq_or_lt_of_le (by omega : j ≤ i) with h | h
        · rw [h]; exact angLe_refl _
        · exact hsorted j i h hi
      exact reflex_cone_wrap (D i) (D 0) (D j) (hnz i hi) (hnz 0 (by omega))
        hstrict hcon hle1 hle2
    have hzero := main (D i) (D 0) (hnz i hi) (hnz 0 (by omega)) hall
    apply three_parallel_contra (D i) (D 0) (D 1) (hnz i hi)
      (hnz 0 (by omega)) (hnz 1 (by omega))
    · have := (hzero 0 (by omega)).2
      rw [cross_skew] at this
      linarith
    · have := (hzero 1 (by omega)).2
      rw [cross_skew] at this
      linarith
    · exact hdist' i 0 hi (by omega) (by omega)
    · exact hdist' i 1 hi (by omega) (by omega)
    · exact hdist' 0 1 (by omega) (by omega) (by omega)

theorem seg_rep {a b p : Pt} (c : Pt) (h : onSeg a b p) :
    ∃ t : ℚ, 0 ≤ t ∧ t ≤ 1 ∧
      (sub p c).1 = (1 - t) * (sub a c).1 + t * (sub b c).1 ∧
      (sub p c).2 = (1 - t) * (sub a c).2 + t * (sub b c).2 := by
  obtain ⟨t, h0, h1, hp⟩ := h
  refine ⟨t, h0, h1, ?_, ?_⟩
  · show p.1 - c.1 = (1 - t) * (a.1 - c.1) + t * (b.1 - c.1)
    rw [hp]
    show a.1 + t * (b.1 - a.1) - c.1 = (1 - t) * (a.1 - c.1) + t * (b.1 - c.1)
    ring
  · show p.2 - c.2 = (1 - t) * (a.2 - c.2) + t * (b.2 - c.2)
    rw [hp]
    show a.2 + t * (b.2 - a.2) - c.2 = (1 - t) * (a.2 - c.2) + t * (b.2 - c.2)
    ring

theorem cross_comb {x u v : Pt} {a b : ℚ}
    (h1 : x.1 = a * u.1 + b * v.1) (h2 : x.2 = a * u.2 + b * v.2) :
    cross u x = b * cross u v ∧ cross x v = a * cross u v := by
  constructor
  · show u.1 * x.2 - u.2 * x.1 = b * (u.1 * v.2 - u.2 * v.1)
    rw [h1, h2]
    ring
  · show x.1 * v.2 - x.2 * v.1 = a * (u.1 * v.2 - u.2 * v.1)
    rw [h1, h2]
    ring

theorem shared_vertex {u v w x : Pt} (huv : 0 < cross u v) (hvw : 0 < cross v w)
    {t s : ℚ} (_ht0 : 0 ≤ t) (ht1 : t ≤ 1) (hs0 : 0 ≤ s) (_hs1 : s ≤ 1)
    (hx1 : x.1 = (1 - t) * u.1 + t * v.1) (hx2 : x.2 = (1 - t) * u.2 + t * v.2)
    (hy1 : x.1 = (1 - s) * v.1 + s * w.1) (hy2 : x.2 = (1 - s) * v.2 + s * w.2) :
    x = v := by
  have c1 : cross x v = (1 - t) * cross u v := (cross_comb hx1 hx2).2
  have c2 : cross v x = s * cross v w := (cross_comb hy1 hy2).1
  have hskew : cross v x = - cross x v := cross_skew x v
  have ht : t = 1 := by nlinarith
  have : x = (x.1, x.2) := rfl
  rw [this, hx1, hx2, ht, show v = (v.1, v.2) from rfl]
  rw [Prod.mk.injEq]
  constructor <;> ring

/-- The core geometric theorem: a list of at least three vertices, angularly
strictly sorted around its own centroid with no vertex at the centroid,
forms a non-self-intersecting closed polygon. -/
theorem angle_sorted_poly_simple (vs : List Pt)
    (hk : 3 ≤ vs.length)
    (hnz : ∀ i, i < vs.length → sub (vs.getD i (0, 0)) (meanPt vs) ≠ (0, 0))
    (hsorted : ∀ i j, i < j → j < vs.length →
      AngLe (sub (vs.getD i (0, 0)) (meanPt vs)) (sub (vs.getD j (0, 0)) (meanPt vs)))
    (hdist : ∀ i j, i < j → j < vs.length →
      ¬ AngEq (sub (vs.getD i (0, 0)) (meanPt vs)) (sub (vs.getD j (0, 0)) (meanPt vs))) :
    PolySimple vs := by
  have hcyc := gaps_pos vs hk hnz hsorted hdist
  set k := vs.length with hkdef
  set c := meanPt vs with hcdef
  set D : ℕ → Pt := fun i => sub (vs.getD i (0, 0)) c with hDdef
  have hstrict : ∀ i j, i < j → j < k → AngLt (D i) (D j) := by
    intro i j hij hj
    exact angLt_of_le_not_eq (hsorted i j hij hj) (hdist i j hij hj)
  have key : ∀ i j, i < j → j < k → ∀ p : Pt,
      onSeg (vs.getD i (0, 0)) (vs.getD ((i + 1) % k) (0, 0)) p →
      onSeg (vs.getD j (0, 0)) (vs.getD ((j + 1) % k) (0, 0)) p →
      ((j = (i + 1) % k ∧ p = vs.getD j (0, 0)) ∨
       (i = (j + 1) % k ∧ p = vs.getD i (0, 0))) := by
    intro i j hij hj p hpi hpj
    have hi : i < k := lt_trans hij hj
    have hi1 : i + 1 < k := by omega
    have hmodi : (i + 1) % k = i + 1 := Nat.mod_eq_of_lt hi1
    obtain ⟨t, ht0, ht1, hrt1, hrt2⟩ := seg_rep c hpi
    obtain ⟨s, hs0, hs1, hrs1, hrs2⟩ := seg_rep c hpj
    have hcI : 0 < cross (D i) (D (i + 1)) := by
      have := hcyc i hi
      rw [hmodi] at this
      exact this
    rw [hmodi] at hrt1 hrt2
    by_cases hadj1 : j = i + 1
    · -- adjacent, shared vertex at index j
      left
      refine ⟨by rw [hmodi]; exact hadj1, ?_⟩
      have hcJ : 0 < cross (D j) (D ((j + 1) % k)) := hcyc j hj
      rw [hadj1] at hrs1 hrs2 hcJ
      have hxv : sub p c = D (i + 1) :=
        shared_vertex hcI hcJ ht0 ht1 hs0 hs1 hrt1 hrt2 hrs1 hrs2
      rw [hadj1]
      exact sub_inj hxv
    · by_cases hadj2 : i = 0 ∧ j = k - 1
      · -- adjacent through the wrap, shared vertex at index i = 0
        right
        obtain ⟨hi0, hjk⟩ := hadj2
        have hmodj : (j + 1) % k = 0 := by
          rw [hjk, Nat.sub_add_cancel (by omega), Nat.mod_self]
        refine ⟨by rw [hmodj]; exact hi0.symm ▸ rfl, ?_⟩
        have h1k : (0 + 1) % k = 1 := by
          rw [Nat.zero_add, Nat.mod_eq_of_lt (by omega)]
        have hcw : 0 < cross (D j) (D 0) := by
          have := hcyc j hj
          rw [hmodj] at this
          exact this
        have hc0 : 0 < cross (D 0) (D 1) := by
          have := hcyc 0 (by omega)
          rw [h1k] at this
          exact this
        rw [hmodj] at hrs1 hrs2
        rw [hi0] at hrt1 hrt2
        have hxv : sub p c = D 0 :=
          shared_vertex hcw hc0 hs0 hs1 ht0 ht1 hrs1 hrs2 hrt1 hrt2
        rw [hi0]
        exact sub_inj hxv
      · -- non-adjacent: derive a contradiction
        exfalso
        have hne1 : i + 1 < j := by omega
        have hcc := cross_comb hrt1 hrt2
        have hx0 : sub p c ≠ (0, 0) := by
          intro h0
          have hz : cross (D i) (sub p c) = 0 := by
            rw [h0]
            show (D i).1 * 0 - (D i).2 * 0 = 0
            ring
          have ht' : t = 0 := by
            have := hcc.1
            rw [hz] at this
            nlinarith
          apply hnz i hi
          have e1 : (D i).1 = 0 := by
            have h' := hrt1
            rw [h0, ht'] at h'
            have h'' : (0 : ℚ) = (1 - 0) * (D i).1 + 0 * (D (i + 1)).1 := h'
            linear_combination - h''
          have e2 : (D i).2 = 0 := by
            have h' := hrt2
            rw [h0, ht'] at h'
            have h'' : (0 : ℚ) = (1 - 0) * (D i).2 + 0 * (D (i + 1)).2 := h'
            linear_combination - h''
          show D i = ((0 : ℚ), (0 : ℚ))
          rw [show D i = ((D i).1, (D i).2) from rfl, e1, e2]
        have hW1 := wedge_locate (D i) (D (i + 1)) (sub p c) (hnz i hi)
          (hnz (i + 1) hi1) hx0 (hstrict i (i + 1) (Nat.lt_succ_self i) hi1) hcI
          (by rw [hcc.1]; exact mul_nonneg ht0 (le_of_lt hcI))
          (by rw [hcc.2]; exact mul_nonneg (by linarith) (le_of_lt hcI))
        by_cases hjw : j + 1 < k
        · -- edge j is also a non-wrap edge
          have hmodj : (j + 1) % k = j + 1 := Nat.mod_eq_of_lt hjw
          rw [hmodj] at hrs1 hrs2
          have hcJ : 0 < cross (D j) (D (j + 1)) := by
            have := hcyc j hj
            rw [hmodj] at this
            exact this
          have hccj := cross_comb hrs1 hrs2
          have hW2 := wedge_locate (D j) (D (j + 1)) (sub p c) (hnz j hj)
            (hnz (j + 1) hjw) hx0 (hstrict j (j + 1) (Nat.lt_succ_self j) hjw) hcJ
            (by rw [hccj.1]; exact mul_nonneg hs0 (le_of_lt hcJ))
            (by rw [hccj.2]; exact mul_nonneg (by linarith) (le_of_lt hcJ))
          exact (hstrict (i + 1) j hne1 hj).2 (angLe_trans hW2.1 hW1.2)
        · -- edge j is the wrap edge
          have hjk : j = k - 1 := by omega
          have hmodj : (j + 1) % k = 0 := by
            rw [hjk, Nat.sub_add_cancel (by omega), Nat.mod_self]
          rw [hmodj] at hrs1 hrs2
          have hi0' : 0 < i := by
            rcases Nat.eq_zero_or_pos i with h | h
            · exact absurd ⟨h, hjk⟩ hadj2
            · exact h
          have hcw : 0 < cross (D j) (D 0) := by
            have := hcyc j hj
            rw [hmodj] at this
            exact this
          have hccj := cross_comb hrs1 hrs2
          have hWw := wedge_locate_wrap (D j) (D 0) (sub p c) (hnz j hj)
            (hnz 0 (by omega)) hx0 (hstrict 0 j (by omega) hj) hcw
            (by rw [hccj.1]; exact mul_nonneg hs0 (le_of_lt hcw))
            (by rw [hccj.2]; exact mul_nonneg (by linarith) (le_of_lt hcw))
          rcases hWw with hl | hr
          · exact (hstrict 0 i hi0' hi).2 (angLe_trans hW1.1 hl)
          · exact (hstrict (i + 1) j hne1 hj).2 (angLe_trans hr hW1.2)
  intro i j hi hj hij p hpi hpj
  rcases lt_or_gt_of_ne hij with h | h
  · exact key i j h hj p hpi hpj
  · rcases key j i h hi p hpj hpi with ⟨h1, h2⟩ | ⟨h1, h2⟩
    · exact Or.inr ⟨h1, h2⟩
    · exact Or.inl ⟨h1, h2⟩

theorem extendsV_refl (nv : List Pt) : ExtendsV nv nv :=
  ⟨le_refl _, fun _ _ => rfl⟩

theorem extendsV_trans {a b c : List Pt} (h1 : ExtendsV a b) (h2 : ExtendsV b c) :
    ExtendsV a c :=
  ⟨le_trans h1.1 h2.1, fun m hm => (h2.2 m (lt_of_lt_of_le hm h1.1)).trans (h1.2 m hm)⟩

theorem meanPt_perm {l l' : List Pt} (h : l.Perm l') : meanPt l = meanPt l' := by
  unfold meanPt
  rw [(h.map Prod.fst).sum_eq, (h.map Prod.snd).sum_eq, h.length_eq]

theorem sortRegionByAngle_perm (nv : List Pt) (r : List ℤ) :
    (sortRegionByAngle nv r).Perm r :=
  List.perm_insertionSort _ _

theorem sortRegionByAngle_sorted (nv : List Pt) (r : List ℤ) :
    SortedByAngle nv (sortRegionByAngle nv r) := by
  have hperm := sortRegionByAngle_perm nv r
  have hc : meanPt ((sortRegionByAngle nv r).map (fun v => nv.getD v.toNat (0, 0))) =
      meanPt (r.map (fun v => nv.getD v.toNat (0, 0))) :=
    meanPt_perm (hperm.map _)
  haveI : IsTotal ℤ (fun a b => angLeB
      (sub (nv.getD a.toNat (0, 0)) (meanPt (r.map (fun v => nv.getD v.toNat (0, 0)))))
      (sub (nv.getD b.toNat (0, 0)) (meanPt (r.map (fun v => nv.getD v.toNat (0, 0)))))
        = true) :=
    ⟨fun a b => angLe_total _ _⟩
  haveI : IsTrans ℤ (fun a b => angLeB
      (sub (nv.getD a.toNat (0, 0)) (meanPt (r.map (fun v => nv.getD v.toNat (0, 0)))))
      (sub (nv.getD b.toNat (0, 0)) (meanPt (r.map (fun v => nv.getD v.toNat (0, 0)))))
        = true) :=
    ⟨fun a b c hab hbc => angLe_trans hab hbc⟩
  have hsorted : List.Sorted (fun a b => angLeB
      (sub (nv.getD a.toNat (0, 0)) (meanPt (r.map (fun v => nv.getD v.toNat (0, 0)))))
      (sub (nv.getD b.toNat (0, 0)) (meanPt (r.map (fun v => nv.getD v.toNat (0, 0)))))
        = true) (sortRegionByAngle nv r) :=
    List.sorted_insertionSort _ r
  unfold SortedByAngle
  rw [hc]
  exact hsorted

theorem sortedByAngle_extends {nv nv' : List Pt} {r : List ℤ}
    (hx : ExtendsV nv nv') (hb : ∀ v ∈ r, 0 ≤ v ∧ v.toNat < nv.length)
    (hs : SortedByAngle nv r) : SortedByAngle nv' r := by
  unfold SortedByAngle at hs ⊢
  have hmap : r.map (fun v => nv'.getD v.toNat (0, 0)) =
      r.map (fun v => nv.getD v.toNat (0, 0)) :=
    List.map_congr_left (fun v hv => hx.2 v.toNat (hb v hv).2)
  rw [hmap]
  refine List.Pairwise.imp_of_mem ?_ hs
  intro a b ha hb'
  rw [hx.2 a.toNat (hb a ha).2, hx.2 b.toNat (hb b hb').2]
  exact id

theorem extendRidge_spec (c : Pt) (rad : ℚ) (u : Pt → Pt) (vor : VorData) (p1 : ℕ)
    (st : List ℤ × List Pt) (rg : ℕ × ℤ × ℤ) :
    ExtendsV st.2 (extendRidge c rad u vor p1 st rg).2 ∧
    ((∀ v ∈ st.1, 0 ≤ v ∧ v.toNat < st.2.length) →
      ∀ v ∈ (extendRidge c rad u vor p1 st rg).1,
        0 ≤ v ∧ v.toNat < (extendRidge c rad u vor p1 st rg).2.length) := by
  unfold extendRidge
  by_cases h : (0 : ℤ) ≤ (if rg.2.2 < 0 then rg.2.2 else rg.2.1)
  · rw [if_pos h]
    exact ⟨extendsV_refl _, fun hb => hb⟩
  · rw [if_neg h]
    constructor
    · constructor
      · simp
      · intro m hm
        exact List.getD_append _ _ _ _ hm
    · intro hb v hv
      rcases List.mem_append.mp hv with hv | hv
      · obtain ⟨h1, h2⟩ := hb v hv
        refine ⟨h1, ?_⟩
        rw [List.length_append]
        omega
      · rw [List.mem_singleton.mp hv]
        refine ⟨Int.ofNat_nonneg _, ?_⟩
        rw [List.length_append]
        simp

theorem extend_fold_spec (c : Pt) (rad : ℚ) (u : Pt → Pt) (vor : VorData) (p1 : ℕ) :
    ∀ (ridges : List (ℕ × ℤ × ℤ)) (st : List ℤ × List Pt),
      (∀ v ∈ st.1, 0 ≤ v ∧ v.toNat < st.2.length) →
      ExtendsV st.2 (ridges.foldl (extendRidge c rad u vor p1) st).2 ∧
      (∀ v ∈ (ridges.foldl (extendRidge c rad u vor p1) st).1,
        0 ≤ v ∧ v.toNat < (ridges.foldl (extendRidge c rad u vor p1) st).2.length) := by
  intro ridges
  induction ridges with
  | nil => intro st hb; exact ⟨extendsV_refl _, hb⟩
  | cons rg rest ih =>
    intro st hb
    rw [List.foldl_cons]
    obtain ⟨hx, hb'⟩ := extendRidge_spec c rad u vor p1 st rg
    obtain ⟨hx2, hb2⟩ := ih (extendRidge c rad u vor p1 st rg) (hb' hb)
    exact ⟨extendsV_trans hx hx2, hb2⟩

theorem finitizeRegion_spec (c : Pt) (rad : ℚ) (u : Pt → Pt) (vor : VorData)
    (hreg : ∀ r ∈ vor.regions, ∀ v ∈ r, v < (vor.vertices.length : ℤ))
    (st : List (List ℤ) × List Pt) (pr : ℕ × ℕ)
    (hvl : vor.vertices.length ≤ st.2.length) :
    ExtendsV st.2 (finitizeRegion c rad u vor st pr).2 ∧
    (∃ R : List ℤ, (finitizeRegion c rad u vor st pr).1 = st.1 ++ [R] ∧
      (∀ v ∈ R, 0 ≤ v ∧ v.toNat < (finitizeRegion c rad u vor st pr).2.length) ∧
      (¬ ((vor.regions.getD pr.2 []).all (fun v => 0 ≤ v) = true) →
        SortedByAngle (finitizeRegion c rad u vor st pr).2 R)) := by
  have hmem : ∀ v ∈ vor.regions.getD pr.2 [], v < (vor.vertices.length : ℤ) := by
    intro v hv
    by_cases h : pr.2 < vor.regions.length
    · refine hreg _ ?_ v hv
      rw [List.getD_eq_getElem _ _ h] at hv ⊢
      exact List.getElem_mem h
    · rw [List.getD_eq_default _ _ (by omega)] at hv
      simp at hv
  unfold finitizeRegion
  by_cases hall : (vor.regions.getD pr.2 []).all (fun v => 0 ≤ v) = true
  · rw [if_pos hall]
    refine ⟨extendsV_refl _, vor.regions.getD pr.2 [], rfl, ?_, fun h => absurd hall h⟩
    intro v hv
    have h0 : (0 : ℤ) ≤ v := by
      have := List.all_eq_true.mp hall v hv
      simpa using this
    have h1 := hmem v hv
    refine ⟨h0, ?_⟩
    show v.toNat < st.2.length
    omega
  · rw [if_neg hall]
    have hinit : ∀ v ∈ (vor.regions.getD pr.2 []).filter (fun v => decide (0 ≤ v)),
        0 ≤ v ∧ v.toNat < st.2.length := by
      intro v hv
      obtain ⟨hv1, hv2⟩ := List.mem_filter.mp hv
      have h0 : (0 : ℤ) ≤ v := by simpa using hv2
      have h1 := hmem v hv1
      exact ⟨h0, by omega⟩
    obtain ⟨hx, hb⟩ := extend_fold_spec c rad u vor pr.1 (allRidges vor pr.1)
      ((vor.regions.getD pr.2 []).filter (fun v => decide (0 ≤ v)), st.2) hinit
    refine ⟨hx, _, rfl, ?_, fun _ => sortRegionByAngle_sorted _ _⟩
    intro v hv
    have hv' : v ∈ ((allRidges vor pr.1).foldl
        (extendRidge c rad u vor pr.1)
        ((vor.regions.getD pr.2 []).filter (fun v => decide (0 ≤ v)), st.2)).1 :=
      (sortRegionByAngle_perm _ _).mem_iff.mp hv
    exact hb v hv'

theorem finitize_fold_spec (c : Pt) (rad : ℚ) (u : Pt → Pt) (vor : VorData)
    (hreg : ∀ r ∈ vor.regions, ∀ v ∈ r, v < (vor.vertices.length : ℤ)) :
    ∀ (l : List (ℕ × ℕ)) (st : List (List ℤ) × List Pt),
      vor.vertices.length ≤ st.2.length →
      (∀ r ∈ st.1, ∀ v ∈ r, 0 ≤ v ∧ v.toNat < st.2.length) →
      ExtendsV st.2 (l.foldl (finitizeRegion c rad u vor) st).2 ∧
      (∃ tl, (l.foldl (finitizeRegion c rad u vor) st).1 = st.1 ++ tl) ∧
      (∀ r ∈ (l.foldl (finitizeRegion c rad u vor) st).1, ∀ v ∈ r,
        0 ≤ v ∧ v.toNat < (l.foldl (finitizeRegion c rad u vor) st).2.length) ∧
      (∀ m, m < l.length →
        ¬ ((vor.regions.getD (l.getD m (0, 0)).2 []).all (fun v => 0 ≤ v) = true) →
        SortedByAngle (l.foldl (finitizeRegion c rad u vor) st).2
          ((l.foldl (finitizeRegion c rad u vor) st).1.getD (st.1.length + m) [])) := by
  intro l
  induction l with
  | nil =>
    intro st hvl hb
    exact ⟨extendsV_refl _, ⟨[], by simp⟩, hb, fun m hm => absurd hm (by simp)⟩
  | cons pr rest ih =>
    intro st hvl hb
    rw [List.foldl_cons]
    obtain ⟨hx1, R, hR, hRb, hRs⟩ := finitizeRegion_spec c rad u vor hreg st pr hvl
    set st1 := finitizeRegion c rad u vor st pr with hst1
    have hvl1 : vor.vertices.length ≤ st1.2.length := le_trans hvl hx1.1
    have hb1 : ∀ r ∈ st1.1, ∀ v ∈ r, 0 ≤ v ∧ v.toNat < st1.2.length := by
      intro r hr v hv
      rw [hR] at hr
      rcases List.mem_append.mp hr with hr | hr
      · obtain ⟨h0, h1⟩ := hb r hr v hv
        exact ⟨h0, by have := hx1.1; omega⟩
      · rw [List.mem_singleton.mp hr] at hv
        exact hRb v hv
    obtain ⟨hx2, ⟨tl, htl⟩, hb2, hs2⟩ := ih st1 hvl1 hb1
    refine ⟨extendsV_trans hx1 hx2, ⟨R :: tl, by rw [htl, hR]; simp⟩, hb2, ?_⟩
    intro m hm hunb
    rcases Nat.eq_zero_or_pos m with hm0 | hmpos
    · subst hm0
      have hget : (rest.foldl (finitizeRegion c rad u vor) st1).1.getD
          (st.1.length + 0) [] = R := by
        rw [htl, hR, Nat.add_zero, List.append_assoc,
          List.getD_append_right _ _ _ _ (le_refl _), Nat.sub_self]
        rfl
      rw [hget]
      have hRb' : ∀ v ∈ R, 0 ≤ v ∧ v.toNat < st1.2.length := hRb
      exact sortedByAngle_extends hx2 hRb' (hRs (by simpa using hunb))
    · obtain ⟨m', rfl⟩ := Nat.exists_eq_succ_of_ne_zero (by omega : m ≠ 0)
      have hidx : st.1.length + (m' + 1) = st1.1.length + m' := by
        rw [hR]
        simp
        omega
      rw [hidx]
      apply hs2 m' (by simpa using hm)
      simpa using hunb

end AngleOrder

theorem enum_getD (l : List ℕ) (i : ℕ) (h : i < l.length) :
    l.enum.getD i (0, 0) = (i, l.getD i 0) := by
  have h' : i < l.enum.length := by simpa [List.enum_length] using h
  rw [List.getD_eq_getElem _ _ h', List.getElem_enum, List.getD_eq_getElem _ _ h]

/-- C4: with four or more input points, the Voronoi reconstruction yields one
region per input point (`voronoi_finite_polygons`) and one output cell per
input row (`generate_voronoi_polygons`); every reconstructed region holds only
nonnegative vertex indices in bounds for the extended vertex list; the region
of every previously unbounded cell comes out sorted by angle around the
centroid of its own vertices; and, provided that region is non-degenerate (at
least three vertices, none coinciding with the centroid, with pairwise
distinct angles), its vertex cycle is a simple, non-self-intersecting
polygon.  `vor` and `fp` name the intermediate Voronoi structure and
finitization result; `hpr` and `hreg` record scipy's invariants that
`point_region` has one entry per input point and that region vertex indices
are below `len(vor.vertices)`. -/
theorem voronoi_finitization_angle_sorted
    (u : Pt → Pt) (voronoiOf : List Pt → VorData) (valid : Geom → Bool)
    (rows : List (String × Pt)) (clip : Option Geom) (i₀ : ℕ)
    (vor : VorData) (fp : List (List ℤ) × List Pt)
    (hvor : voronoiOf (rows.map Prod.snd) = vor)
    (hfp : voronoi_finite_polygons u vor = fp)
    (h4 : ¬ rows.length < 4)
    (hpr : vor.point_region.length = rows.length)
    (hreg : ∀ r ∈ vor.regions, ∀ v ∈ r, v < (vor.vertices.length : ℤ))
    (hi₀ : i₀ < rows.length)
    (hunb : ¬ ((vor.regions.getD (vor.point_region.getD i₀ 0) []).all
        (fun v => 0 ≤ v) = true))
    (hk : 3 ≤ (regionVerts fp i₀).length)
    (hnz : ∀ p ∈ regionVerts fp i₀,
      sub p (meanPt (regionVerts fp i₀)) ≠ (0, 0))
    (hdist : (regionVerts fp i₀).Pairwise (fun p q =>
      ¬ AngEq (sub p (meanPt (regionVerts fp i₀)))
        (sub q (meanPt (regionVerts fp i₀))))) :
    fp.1.length = rows.length ∧
    (generate_voronoi_polygons u voronoiOf valid rows clip).length = rows.length ∧
    (∀ r ∈ fp.1, ∀ v ∈ r, 0 ≤ v ∧ v.toNat < fp.2.length) ∧
    SortedByAngle fp.2 (fp.1.getD i₀ []) ∧
    PolySimple (regionVerts fp i₀) := by
  subst hvor
  subst hfp
  set vor := voronoiOf (rows.map Prod.snd) with hvordef
  have hfl : (voronoi_finite_polygons u vor).1.length = rows.length := by
    rw [voronoi_finite_polygons_length]
    exact hpr
  have hlen2 : (generate_voronoi_polygons u voronoiOf valid rows clip).length
      = rows.length := by
    unfold generate_voronoi_polygons
    rw [if_neg (by simpa using h4)]
    rw [List.length_zip, List.length_map, List.length_map, List.enum_length,
      ← hvordef, hfl]
    simp
  have hVP : voronoi_finite_polygons u vor =
      vor.point_region.enum.foldl
        (finitizeRegion (meanPt vor.points) (ptpMax vor.points * 10) u vor)
        ([], vor.vertices) := rfl
  obtain ⟨hx, ⟨tl, htl⟩, hb, hs⟩ := finitize_fold_spec (meanPt vor.points)
    (ptpMax vor.points * 10) u vor hreg vor.point_region.enum ([], vor.vertices)
    (le_refl _) (by simp)
  have hi₀p : i₀ < vor.point_region.length := by rw [hpr]; exact hi₀
  have hi₀e : i₀ < vor.point_region.enum.length := by
    simpa [List.enum_length] using hi₀p
  have hsort : SortedByAngle (voronoi_finite_polygons u vor).2
      ((voronoi_finite_polygons u vor).1.getD i₀ []) := by
    rw [hVP]
    have := hs i₀ hi₀e (by rw [enum_getD _ _ hi₀p]; exact hunb)
    simpa using this
  have hb' : ∀ r ∈ (voronoi_finite_polygons u vor).1, ∀ v ∈ r,
      0 ≤ v ∧ v.toNat < (voronoi_finite_polygons u vor).2.length := by
    rw [hVP]
    exact hb
  refine ⟨hfl, hlen2, hb', hsort, ?_⟩
  have hvs : regionVerts (voronoi_finite_polygons u vor) i₀ =
      ((voronoi_finite_polygons u vor).1.getD i₀ []).map
        (fun v => (voronoi_finite_polygons u vor).2.getD v.toNat (0, 0)) := rfl
  have hlenvs : (regionVerts (voronoi_finite_polygons u vor) i₀).length =
      ((voronoi_finite_polygons u vor).1.getD i₀ []).length := by
    rw [hvs, List.length_map]
  refine angle_sorted_poly_simple _ hk ?_ ?_ ?_
  · intro i hi
    apply hnz
    rw [List.getD_eq_getElem _ _ hi]
    exact List.getElem_mem hi
  · intro i j hij hj
    have hi : i < (regionVerts (voronoi_finite_polygons u vor) i₀).length :=
      lt_trans hij hj
    have hiR : i < ((voronoi_finite_polygons u vor).1.getD i₀ []).length := by
      rw [← hlenvs]
      exact hi
    have hjR : j < ((voronoi_finite_polygons u vor).1.getD i₀ []).length := by
      rw [← hlenvs]
      exact hj
    have hiM : i < (((voronoi_finite_polygons u vor).1.getD i₀ []).map
        (fun v => (voronoi_finite_polygons u vor).2.getD v.toNat (0, 0))).length := by
      rw [List.length_map]
      exact hiR
    have hjM : j < (((voronoi_finite_polygons u vor).1.getD i₀ []).map
        (fun v => (voronoi_finite_polygons u vor).2.getD v.toNat (0, 0))).length := by
      rw [List.length_map]
      exact hjR
    rw [hvs, List.getD_eq_getElem _ _ hiM, List.getD_eq_getElem _ _ hjM,
      List.getElem_map, List.getElem_map]
    exact List.pairwise_iff_getElem.mp hsort i j hiR hjR hij
  · intro i j hij hj
    have hi : i < (regionVerts (voronoi_finite_polygons u vor) i₀).length :=
      lt_trans hij hj
    have hdist' := List.pairwise_iff_getElem.mp hdist i j hi hj hij
    rw [List.getD_eq_getElem _ _ hi, List.getD_eq_getElem _ _ hj]
    exact hdist'

theorem vorC4_center : meanPt vorC4.points = (2, 2) := by
  unfold meanPt vorC4
  norm_num

theorem vorC4_radius : ptpMax vorC4.points * 10 = 40 := by
  unfold ptpMax vorC4 maxQ minQ
  norm_num

theorem vorC4_step1 :
    extendRidge (2, 2) 40 id vorC4 0 ([0], [(2, 2)]) (1, -1, 0) =
      ([0, 1], [(2, 2), (2, -158)]) := by
  unfold extendRidge vorC4
  norm_num [sub, dot, qsign, Prod.ext_iff]

theorem vorC4_step2 :
    extendRidge (2, 2) 40 id vorC4 0 ([0, 1], [(2, 2), (2, -158)]) (2, -1, 0) =
      ([0, 1, 2], nvC4) := by
  unfold extendRidge vorC4 nvC4
  norm_num [sub, dot, qsign, Prod.ext_iff]

theorem vorC4_fin0 :
    finitizeRegion (2, 2) 40 id vorC4 ([], vorC4.vertices) (0, 0) =
      ([regC4], nvC4) := by
  unfold finitizeRegion
  rw [if_neg (by decide)]
  show ((([] : List (List ℤ)) ++ [sortRegionByAngle _ _]), _) = _
  have hr : allRidges vorC4 0 = [(1, -1, 0), (2, -1, 0)] := rfl
  have hf : ((vorC4.regions.getD ((0, 0) : ℕ × ℕ).2 []).filter (fun v => 0 ≤ v),
      vorC4.vertices) = (([0] : List ℤ), ([(2, 2)] : List Pt)) := rfl
  rw [hr, hf, List.foldl_cons, vorC4_step1, List.foldl_cons, vorC4_step2,
    List.foldl_nil]
  rfl

theorem vorC4_fp : voronoi_finite_polygons id vorC4 = fpC4 := by
  unfold voronoi_finite_polygons
  rw [vorC4_center, vorC4_radius]
  show List.foldl _ _ (List.enum [0, 1, 1, 1]) = _
  rw [show List.enum [0, 1, 1, 1] = [(0, 0), (1, 1), (2, 1), (3, 1)] from rfl]
  rw [List.foldl_cons, vorC4_fin0]
  rfl

theorem vsC4_perm : (regionVerts fpC4 0).Perm nvC4 := by
  have h := (sortRegionByAngle_perm nvC4 [0, 1, 2]).map
    (fun v => nvC4.getD v.toNat (0, 0))
  have h2 : ([0, 1, 2] : List ℤ).map (fun v => nvC4.getD v.toNat (0, 0)) = nvC4 := rfl
  rw [h2] at h
  exact h

theorem vsC4_mean : meanPt (regionVerts fpC4 0) = (-154/3, -154/3) := by
  rw [meanPt_perm vsC4_perm]
  unfold nvC4 meanPt
  norm_num

theorem hkC4 : 3 ≤ (regionVerts fpC4 0).length := by
  rw [vsC4_perm.length_eq]
  decide

theorem hnzC4 : ∀ p ∈ regionVerts fpC4 0,
    sub p (meanPt (regionVerts fpC4 0)) ≠ (0, 0) := by
  intro p hp
  rw [vsC4_mean]
  have hmem : p ∈ nvC4 := vsC4_perm.mem_iff.mp hp
  have : p = ((2 : ℚ), (2 : ℚ)) ∨ p = (2, -158) ∨ p = (-158, 2) := by
    simpa [nvC4] using hmem
  rcases this with rfl | rfl | rfl <;>
    · simp only [sub, ne_eq, Prod.mk.injEq, not_and]
      norm_num

theorem not_angEq_of_class_ne {v w : Pt} (h : angClass v ≠ angClass w) :
    ¬ AngEq v w := by
  intro he
  obtain ⟨h1, h2⟩ := he
  unfold AngLe angLeB at h1 h2
  rw [decide_eq_true_iff] at h1 h2
  have h1' : angClass v < angClass w ∨ angClass v = angClass w := by
    rcases h1 with h1 | h1
    exacts [Or.inl h1, Or.inr h1.1]
  have h2' : angClass w < angClass v ∨ angClass w = angClass v := by
    rcases h2 with h2 | h2
    exacts [Or.inl h2, Or.inr h2.1]
  rcases h1' with h1' | h1' <;> rcases h2' with h2' | h2' <;> omega

theorem not_angEq_of_cross_neg {v w : Pt} (hv : angClass v = 2) (hw : angClass w = 2)
    (hc : cross w v < 0) : ¬ AngEq v w := by
  intro he
  have h2 := he.2
  unfold AngLe angLeB at h2
  rw [decide_eq_true_iff, hv, hw] at h2
  rcases h2 with h2 | ⟨-, h2 | h2⟩
  · exact absurd h2 (by decide)
  · exact absurd h2 (by decide)
  · exact absurd h2 (not_le.mpr hc)

theorem hdistC4 : (regionVerts fpC4 0).Pairwise (fun p q =>
    ¬ AngEq (sub p (meanPt (regionVerts fpC4 0)))
      (sub q (meanPt (regionVerts fpC4 0)))) := by
  rw [vsC4_mean]
  refine List.Perm.pairwise vsC4_perm.symm ?_ (fun h h' => h (angEq_symm h'))
  have e0 : sub ((2 : ℚ), (2 : ℚ)) (-154/3, -154/3) = (160/3, 160/3) := by
    unfold sub
    norm_num
  have e1 : sub ((2 : ℚ), (-158 : ℚ)) (-154/3, -154/3) = (160/3, -320/3) := by
    unfold sub
    norm_num
  have e2 : sub ((-158 : ℚ), (2 : ℚ)) (-154/3, -154/3) = (-320/3, 160/3) := by
    unfold sub
    norm_num
  have c01 : angClass ((160/3 : ℚ), (160/3 : ℚ)) = 2 := by
    unfold angClass
    norm_num
  have c02 : angClass ((160/3 : ℚ), (-320/3 : ℚ)) = 0 := by
    unfold angClass
    norm_num
  have c03 : angClass ((-320/3 : ℚ), (160/3 : ℚ)) = 2 := by
    unfold angClass
    norm_num
  refine List.Pairwise.cons ?_ (List.Pairwise.cons ?_ (List.pairwise_singleton _ _))
  · intro q hq
    rcases List.mem_cons.mp hq with rfl | hq
    · rw [e0, e1]
      exact not_angEq_of_class_ne (by rw [c01, c02]; decide)
    · rw [List.mem_singleton.mp hq, e0, e2]
      exact not_angEq_of_cross_neg c01 c03 (by unfold cross; norm_num)
  · intro q hq
    rw [List.mem_singleton.mp hq, e1, e2]
    exact not_angEq_of_class_ne (by rw [c02, c03]; decide)

/-- Witness for C4 at a concrete four-point configuration whose first region
is unbounded. -/
theorem voronoi_finitization_angle_sorted_witness :
    fpC4.1.length = rowsC4.length ∧
    (generate_voronoi_polygons id (fun _ => vorC4) validAlways rowsC4
        none).length = rowsC4.length ∧
    (∀ r ∈ fpC4.1, ∀ v ∈ r, 0 ≤ v ∧ v.toNat < fpC4.2.length) ∧
    SortedByAngle fpC4.2 (fpC4.1.getD 0 []) ∧
    PolySimple (regionVerts fpC4 0) :=
  voronoi_finitization_angle_sorted id (fun _ => vorC4) validAlways rowsC4 none 0
    vorC4 fpC4 rfl vorC4_fp (by decide) (by decide) (by decide) (by decide)
    (by decide) hkC4 hnzC4 hdistC4

end MapaPsc
